import Mathlib

/-!
# Verification of the deck-state reconciliation core

A shallow embedding, in Lean 4, of the vocabulary Word Store and
reconciliation subsystem: `nlp_processor.normalize_adjectives`,
`anki_manager.compare_with_existing_decks`, `deck_storage.get_stored_decks`,
`deck_storage.get_words_from_all_stored_decks`, `deck_storage.delete_stored_deck`,
`deck_storage.save_deck_to_storage` (sidecar step) and
`deck_storage.extract_words_from_apkg`, together with theorems settling the
specification's claims about them.

Python strings are modelled as Lean `String` (a list of characters); the
Python string primitives used by the code (`lower`, `split`, `strip`,
`replace`, `endswith`, membership, sorting) are re-implemented below with
Python's semantics over `String.data`, restricted to ASCII case mapping
(all concrete inputs in this development are ASCII).
-/

/-! ## Python string primitives -/

/-- Whitespace characters recognised by Python's `str.strip()` / `str.split()`. -/
def wsChar (c : Char) : Bool :=
  c == ' ' || c == '\t' || c == '\n' || c == '\r' || c == Char.ofNat 11 || c == Char.ofNat 12

/-- `str.lower()` (ASCII case mapping). -/
def pyLower (s : String) : String := ⟨s.data.map Char.toLower⟩

/-- Does `l` start with `pat`? -/
def startsWithChars : List Char → List Char → Bool
  | _, [] => true
  | [], _ :: _ => false
  | c :: l, p :: ps => c == p && startsWithChars l ps

/-- Python's `pat in s` substring test, on character lists. -/
def hasSubstrChars : List Char → List Char → Bool
  | [], pat => pat.isEmpty
  | c :: rest, pat => startsWithChars (c :: rest) pat || hasSubstrChars rest pat

/-- Python's `pat in s` substring test. -/
def pyIn (pat s : String) : Bool := hasSubstrChars s.data pat.data

/-- Python's `c in s` single-character membership. -/
def pyHasChar (s : String) (c : Char) : Bool := s.data.contains c

/-- Python's `s.endswith(suf)`. -/
def pyEndsWith (s suf : String) : Bool :=
  startsWithChars s.data.reverse suf.data.reverse

/-- Split a character list at every character satisfying `p`
(Python `str.split(sep)` semantics: empty pieces are kept). -/
def splitOnPredChars (p : Char → Bool) : List Char → List (List Char)
  | [] => [[]]
  | c :: rest =>
    match splitOnPredChars p rest with
    | [] => [[c]]
    | s :: ss => if p c then [] :: s :: ss else (c :: s) :: ss

/-- Python's `s.split(sep)` for a one-character separator (empty pieces kept). -/
def pySplitChar (s : String) (sep : Char) : List String :=
  (splitOnPredChars (fun c => c == sep) s.data).map String.mk

/-- Python's `s.split()` with no argument: split on whitespace runs, dropping
empty pieces. -/
def pySplitWs (s : String) : List String :=
  ((splitOnPredChars wsChar s.data).filter (fun l => !l.isEmpty)).map String.mk

/-- Python's `s.strip()`. -/
def pyStrip (s : String) : String :=
  ⟨((s.data.dropWhile wsChar).reverse.dropWhile wsChar).reverse⟩

/-- Worker for `pyReplace`: replace every occurrence of the non-empty pattern
`pat`, scanning left to right over non-overlapping occurrences, exactly as
Python's `str.replace`.  Structural recursion on a fuel that starts at the
list's length; each step consumes at least one character, so the fuel never
runs out on the intended calls. -/
def replaceFuel (pat rep : List Char) : Nat → List Char → List Char
  | 0, l => l
  | _, [] => []
  | Nat.succ k, c :: rest =>
    if startsWithChars (c :: rest) pat then
      match pat with
      | [] => c :: replaceFuel pat rep k rest
      | _ :: ps => rep ++ replaceFuel pat rep k (rest.drop ps.length)
    else c :: replaceFuel pat rep k rest

/-- Python's `s.replace(pat, rep)` (for the non-empty patterns used here). -/
def pyReplace (s pat rep : String) : String :=
  match pat.data with
  | [] => s
  | _ :: _ => ⟨replaceFuel pat.data rep.data s.data.length s.data⟩

/-- Strict lexicographic order on character lists by code point, as Python
compares strings. -/
def lexLtChars : List Char → List Char → Bool
  | [], [] => false
  | [], _ :: _ => true
  | _ :: _, [] => false
  | a :: as, b :: bs => if a < b then true else if b < a then false else lexLtChars as bs

/-- Insert `a` into `l`, placing it before the first element not strictly
before it (`lt x y` = `x` must come strictly before `y`); together with
`sortBy` this is a stable sort, as Python's `sorted` / `list.sort`. -/
def insertBy (lt : α → α → Bool) (a : α) : List α → List α
  | [] => [a]
  | b :: bs => if lt b a then b :: insertBy lt a bs else a :: b :: bs

/-- Stable insertion sort by the strict relation `lt`. -/
def sortBy (lt : α → α → Bool) : List α → List α
  | [] => []
  | a :: as => insertBy lt a (sortBy lt as)

/-- Python's `sorted` on a list of strings (ascending, by code points). -/
def pySorted (l : List String) : List String :=
  sortBy (fun a b => lexLtChars a.data b.data) l

/-- Any character of the string alphanumeric (`any(c.isalnum() for c in w)`),
restricted to ASCII. -/
def pyHasAlnum (s : String) : Bool := s.data.any Char.isAlphanum

theorem insertBy_perm (lt : α → α → Bool) (a : α) (l : List α) :
    (insertBy lt a l).Perm (a :: l) := by
  induction l with
  | nil => simp [insertBy]
  | cons b bs ih =>
    simp only [insertBy]
    by_cases h : lt b a
    · simp only [h, if_pos]
      exact (List.Perm.cons b ih).trans (List.Perm.swap a b bs)
    · simp [h]

theorem sortBy_perm (lt : α → α → Bool) (l : List α) : (sortBy lt l).Perm l := by
  induction l with
  | nil => simp [sortBy]
  | cons a as ih =>
    exact (insertBy_perm lt a (sortBy lt as)).trans (List.Perm.cons a ih)

theorem mem_sortBy {lt : α → α → Bool} {l : List α} {x : α} :
    x ∈ sortBy lt l ↔ x ∈ l :=
  (sortBy_perm lt l).mem_iff

/-! ## Morphology Normalizer: `nlp_processor.normalize_adjectives`

Translated from `src/nlp_processor.py`, lines 75-192.  The input set of
adjectives is modelled as a list (the set's enumeration); the function
lowercases and re-sorts everything, so its output does not depend on the
enumeration order. -/

/-- The per-language `gender_patterns` table (including the literal duplicate
`("ón", "ona")` entry of the source). -/
def genderPatterns (language : String) : Option (List (String × String)) :=
  if language = "Spanish" then
    some [("o", "a"), ("os", "as"),
          ("dor", "dora"), ("tor", "tora"), ("sor", "sora"),
          ("ón", "ona"), ("án", "ana"), ("én", "ena"), ("ín", "ina"),
          ("or", "ora"), ("és", "esa"), ("ón", "ona"),
          ("", "a"),
          ("ista", "istas"), ("e", "es")]
  else if language = "French" then
    some [("", "e"), ("s", "es"), ("er", "ère"), ("f", "ve"),
          ("eux", "euse"), ("teur", "trice"), ("if", "ive"),
          ("on", "onne"), ("et", "ette"), ("el", "elle")]
  else if language = "Italian" then
    some [("o", "a"), ("i", "e"), ("e", "i")]
  else if language = "Portuguese" then
    some [("o", "a"), ("os", "as"), ("ão", "ã"), ("ês", "esa"),
          ("or", "ora"), ("eu", "eia")]
  else none

/-- The `spanish_irregulars` exception dictionary. -/
def spanishIrregulars : List (String × String) :=
  [("blanco", "blanca"), ("poco", "poca"), ("rico", "rica"), ("seco", "seca"),
   ("fresco", "fresca"), ("público", "pública"), ("político", "política"),
   ("simpático", "simpática"), ("científico", "científica")]

/-- `adj in spanish_irregulars` / `spanish_irregulars[adj]`. -/
def irregularLookup (adj : String) : Option String :=
  (spanishIrregulars.find? (fun kv => kv.1 == adj)).map (·.2)

/-- Python's `adj[:-n]` slice (for `n = 0` this is the empty string). -/
def pySliceDropLast (s : String) (n : Nat) : String :=
  if n == 0 then ⟨[]⟩ else ⟨s.data.take (s.data.length - n)⟩

/-- Result of scanning the pattern list for one adjective. -/
inductive PairMatch where
  | asMale (femaleForm : String)
  | asFemale (maleForm : String)
  | noMatch
deriving DecidableEq

/-- The inner `for male_suffix, female_suffix in gender_patterns[language]`
loop of `normalize_adjectives`: first match wins; a male-suffix hit whose
female form is absent falls through to the next pattern without trying the
female-suffix branch of the same pattern (Python `if`/`elif`). -/
def scanPatterns (adjList : List String) (adj : String) :
    List (String × String) → PairMatch
  | [] => .noMatch
  | (m, f) :: rest =>
    if pyEndsWith adj m && decide (m.length < adj.length) then
      let stem := if m == "" then adj else pySliceDropLast adj m.length
      let femaleForm := stem ++ f
      if adjList.contains femaleForm then .asMale femaleForm
      else scanPatterns adjList adj rest
    else if pyEndsWith adj f && decide (f.length < adj.length) then
      let stem := pySliceDropLast adj f.length
      let maleForm := stem ++ m
      if adjList.contains maleForm then .asFemale maleForm
      else scanPatterns adjList adj rest
    else scanPatterns adjList adj rest

/-- The Spanish irregular-adjectives pass (lines 146-151): walk the sorted
list, and for every key of the exception table whose partner is present,
mark both and append the combined form.  Returns
`(matched_pairs, normalized_adjs)`; `matched_pairs` is a set, modelled as a
list used only through membership. -/
def irregularPass (adjList : List String) :
    List String → List String × List String → List String × List String
  | [], st => st
  | adj :: rest, (matched, normalized) =>
    match irregularLookup adj with
    | some fem =>
      if adjList.contains fem then
        irregularPass adjList rest
          (matched ++ [adj, fem], normalized ++ [adj ++ "/" ++ fem])
      else irregularPass adjList rest (matched, normalized)
    | none => irregularPass adjList rest (matched, normalized)

/-- The main pattern-matching pass (lines 154-190): words already in
`matched_pairs` are skipped; a male-side match appends the combined form and
marks both; a female-side match only marks both ("handled when we encounter
the male form"); otherwise the word is kept standalone. -/
def mainPass (adjList : List String) (patterns : List (String × String)) :
    List String → List String × List String → List String
  | [], (_, normalized) => normalized
  | adj :: rest, (matched, normalized) =>
    if matched.contains adj then mainPass adjList patterns rest (matched, normalized)
    else
      match scanPatterns adjList adj patterns with
      | .asMale fem =>
        mainPass adjList patterns rest
          (matched ++ [adj, fem], normalized ++ [adj ++ "/" ++ fem])
      | .asFemale male =>
        mainPass adjList patterns rest (matched ++ [adj, male], normalized)
      | .noMatch =>
        mainPass adjList patterns rest (matched, normalized ++ [adj])

/-- `nlp_processor.normalize_adjectives` (lines 75-192). -/
def normalize_adjectives (adjectives : List String) (language : String) :
    List String :=
  let adjList := adjectives.map pyLower
  if adjList.isEmpty then []
  else
    match genderPatterns language with
    | none => pySorted adjList
    | some patterns =>
      let st0 :=
        if language == "Spanish" then irregularPass adjList (pySorted adjList) ([], [])
        else ([], [])
      pySorted (mainPass adjList patterns (pySorted adjList) st0)

example : normalize_adjectives ["bueno", "buena", "casa"] "Spanish" = ["casa"] := by decide
example : normalize_adjectives ["blanco", "blanca"] "Spanish" = ["blanco/blanca"] := by decide
example : normalize_adjectives ["alto", "alta", "casa"] "Spanish" = ["casa"] := by decide

/-- C2: `normalize_adjectives` on `{"bueno","buena","casa"}` for Spanish.  The
claim (and the function's own docstring) expects `["bueno/buena", "casa"]`;
the code instead loses the pair entirely: `"buena"` sorts first, matches the
`('o','a')` pattern on the female side, and that branch marks both forms
consumed without ever appending the combined form, so the later `"bueno"` is
skipped.  This theorem evaluates the code at the failing input. -/
theorem C2_normalize_adjectives_pair_lost :
    normalize_adjectives ["bueno", "buena", "casa"] "Spanish" = ["casa"] ∧
    normalize_adjectives ["bueno", "buena"] "Spanish" = [] ∧
    "bueno/buena" ∉ normalize_adjectives ["bueno", "buena", "casa"] "Spanish" := by
  refine ⟨by decide, by decide, by decide⟩

/-- C8 counterexample: for a language with no pattern table the words are NOT
returned unchanged — they are lowercased first.  `{"Alt"}` with language
`"German"` comes back as `["alt"]`, so the input word `"Alt"` does not appear
in the output at all. -/
theorem C8_counterexample_lowercasing :
    normalize_adjectives ["Alt"] "German" = ["alt"] ∧
    "Alt" ∉ normalize_adjectives ["Alt"] "German" := by
  refine ⟨by decide, by decide⟩

/-- C8 (amended): for every language without a suffix-pattern table,
`normalize_adjectives` returns the LOWERCASED input words as a sorted list —
nothing is combined or dropped — and when the input words are already
lowercase the result is exactly a permutation (a sorted rearrangement) of the
input. -/
theorem C8_passthrough_sorted_lowercased (adjectives : List String)
    (language : String) (hlang : genderPatterns language = none) :
    normalize_adjectives adjectives language = pySorted (adjectives.map pyLower) ∧
    ((∀ w ∈ adjectives, pyLower w = w) →
      (normalize_adjectives adjectives language).Perm adjectives) := by
  have h1 : normalize_adjectives adjectives language = pySorted (adjectives.map pyLower) := by
    unfold normalize_adjectives
    rw [hlang]
    by_cases h : (adjectives.map pyLower).isEmpty
    · rw [List.isEmpty_iff] at h
      simp [h, pySorted, sortBy]
    · simp [h]
  refine ⟨h1, fun hlow => ?_⟩
  rw [h1]
  have hmap : adjectives.map pyLower = adjectives := by
    calc adjectives.map pyLower = adjectives.map id := List.map_congr_left hlow
    _ = adjectives := List.map_id adjectives
  rw [hmap]
  exact sortBy_perm _ _

/-- Witness for `C8_passthrough_sorted_lowercased` at the concrete input
`["rot", "alt"]`, language `"German"`. -/
theorem C8_passthrough_sorted_lowercased_witness :
    normalize_adjectives ["rot", "alt"] "German" = pySorted (["rot", "alt"].map pyLower) ∧
    (normalize_adjectives ["rot", "alt"] "German").Perm ["rot", "alt"] := by
  have h := C8_passthrough_sorted_lowercased ["rot", "alt"] "German" (by decide)
  exact ⟨h.1, h.2 (by decide)⟩

/-! ## Word Store: `deck_storage.py`

The `stored_decks` directory is modelled as a list of named files in
enumeration (`os.listdir`) order.  A file's content is only ever inspected
through `is_valid_json_file` and `json.load`, so it is modelled by what those
observe: a binary archive (zip signature — never valid JSON), a valid JSON
word dictionary, or unparsable text. -/

/-- Observable content of a file in the storage directory. -/
inductive FileData where
  | binary
  | jsonFile (bundle : List (String × List String))
  | badText
deriving DecidableEq

/-- One directory entry. -/
structure StoreFile where
  name : String
  data : FileData
deriving DecidableEq

/-- The storage directory: files in `os.listdir` order. -/
abbrev Store := List StoreFile

def DECK_STORAGE_DIR : String := "stored_decks"

/-- `os.path.join(DECK_STORAGE_DIR, filename)`. -/
def fullPath (f : StoreFile) : String := DECK_STORAGE_DIR ++ "/" ++ f.name

/-- `deck_storage.is_valid_json_file` (lines 421-452): binary archive
signatures (`PK`, gzip) and text that fails both decodings/parses give
`False`; a parsable JSON document gives `True`. -/
def is_valid_json_file : FileData → Bool
  | .jsonFile _ => true
  | _ => false

/-- The `language_patterns` table of `extract_language_from_filename`. -/
def languagePatterns : List (String × List String) :=
  [("Spanish", ["spanish", "español", "espanol", "sp"]),
   ("French", ["french", "français", "francais", "fr"]),
   ("German", ["german", "deutsch", "de"]),
   ("Italian", ["italian", "italiano", "it"]),
   ("Japanese", ["japanese", "日本語", "jp"]),
   ("Chinese", ["chinese", "中文", "zh"]),
   ("Russian", ["russian", "русский", "ru"])]

/-- `deck_storage.extract_language_from_filename` (lines 276-305): first
language (in table order) one of whose patterns is a substring of the
lowercased filename; default `"Spanish"`. -/
def extract_language_from_filename (filename : String) : String :=
  let filenameLower := pyLower filename
  match languagePatterns.find? (fun lp => lp.2.any (fun pat => pyIn pat filenameLower)) with
  | some lp => lp.1
  | none => "Spanish"

/-- Take exactly `n` decimal digits off the front of `l` (ASCII model of the
regex `\d{n}`), returning the digits and the remainder. -/
def takeDigits : Nat → List Char → Option (List Char × List Char)
  | 0, l => some ([], l)
  | Nat.succ _, [] => none
  | Nat.succ m, c :: rest =>
    if c.isDigit then (takeDigits m rest).map (fun dr => (c :: dr.1, dr.2)) else none

/-- Match the regex `_(\d{8})_(\d{6})` at the head of `l`, returning both
digit groups and the remainder after the match. -/
def matchTsAt (l : List Char) : Option (List Char × List Char × List Char) :=
  match l with
  | [] => none
  | c :: rest =>
    if c == '_' then
      match takeDigits 8 rest with
      | some (g1, r1) =>
        match r1 with
        | c2 :: r2 =>
          if c2 == '_' then
            match takeDigits 6 r2 with
            | some (g2, r3) => some (g1, g2, r3)
            | none => none
          else none
        | [] => none
      | none => none
    else none

/-- `re.search(r'_(\d{8})_(\d{6})', s)`: leftmost match. -/
def searchTs : List Char → Option (List Char × List Char × List Char)
  | [] => none
  | c :: rest =>
    match matchTsAt (c :: rest) with
    | some g => some g
    | none => searchTs rest

theorem takeDigits_length {n : Nat} {l ds r : List Char}
    (h : takeDigits n l = some (ds, r)) : r.length ≤ l.length := by
  induction n generalizing l ds r with
  | zero =>
    simp only [takeDigits, Option.some.injEq, Prod.mk.injEq] at h
    rw [h.2]
  | succ m ih =>
    match l with
    | [] => simp [takeDigits] at h
    | c :: rest =>
      simp only [takeDigits] at h
      by_cases hc : c.isDigit
      · rw [if_pos hc] at h
        match hrec : takeDigits m rest with
        | none => rw [hrec] at h; simp at h
        | some (ds', r') =>
          rw [hrec] at h
          simp only [Option.map_some', Option.some.injEq, Prod.mk.injEq] at h
          have h2 := ih hrec
          rw [← h.2]
          simp only [List.length_cons]
          omega
      · rw [if_neg hc] at h; simp at h

theorem matchTsAt_length {l g1 g2 rem : List Char}
    (h : matchTsAt l = some (g1, g2, rem)) : rem.length < l.length := by
  match l with
  | [] => simp [matchTsAt] at h
  | c :: rest =>
    simp only [matchTsAt] at h
    by_cases hc : c == '_'
    case neg => rw [if_neg hc] at h; simp at h
    case pos =>
      rw [if_pos hc] at h
      match h1 : takeDigits 8 rest with
      | none => rw [h1] at h; simp at h
      | some (ga, r1) =>
        rw [h1] at h
        have hr1 : r1.length ≤ rest.length := takeDigits_length h1
        match r1, hr1 with
        | [], _ => simp at h
        | c2 :: r2, hr1 =>
          dsimp only at h
          by_cases hc2 : c2 == '_'
          case neg => rw [if_neg hc2] at h; simp at h
          case pos =>
            rw [if_pos hc2] at h
            match h2 : takeDigits 6 r2 with
            | none => rw [h2] at h; simp at h
            | some (gb, r3) =>
              rw [h2] at h
              simp only [Option.some.injEq, Prod.mk.injEq] at h
              have hr3 : r3.length ≤ r2.length := takeDigits_length h2
              have hrem : rem = r3 := h.2.2.symm
              subst hrem
              simp only [List.length_cons] at hr1 ⊢
              omega

/-- `re.sub(r'_\d{8}_\d{6}', '', s)`: delete every (leftmost-first) match.
Fuel-structured recursion (`matchTsAt_length` shows a match strictly shrinks
the list, so fuel = length never runs out on the intended calls). -/
def subTsFuel : Nat → List Char → List Char
  | 0, l => l
  | _, [] => []
  | Nat.succ k, c :: rest =>
    match matchTsAt (c :: rest) with
    | some g => subTsFuel k g.2.2
    | none => c :: subTsFuel k rest

/-- `re.sub(r'_\d{8}_\d{6}', '', s)` on a character list. -/
def subTsAll (l : List Char) : List Char := subTsFuel l.length l

/-- Python's `str.capitalize()`: first character uppercased, rest lowercased
(ASCII). -/
def pyCapitalize (s : String) : String :=
  match s.data with
  | [] => ⟨[]⟩
  | c :: rest => ⟨Char.toUpper c :: rest.map Char.toLower⟩

/-- Join a list of strings with single spaces. -/
def joinSpace : List String → String
  | [] => ""
  | [s] => s
  | s :: rest => s ++ " " ++ joinSpace rest

/-- Python's `os.path.splitext` on a bare filename: the extension starts at
the last `'.'`, unless every character before it is a `'.'`. -/
def pySplitext (s : String) : String × String :=
  match (s.data.reverse).findIdx? (fun c => c == '.') with
  | none => (s, "")
  | some rIdx =>
    let idx := s.data.length - 1 - rIdx
    if (s.data.take idx).any (fun c => !(c == '.')) then
      (⟨s.data.take idx⟩, ⟨s.data.drop idx⟩)
    else (s, "")

/-- `deck_storage.extract_display_name` (lines 307-332): strip the extension,
delete timestamp substrings, underscores to spaces, collapse whitespace,
capitalize each word. -/
def extract_display_name (filename : String) : String :=
  let name := (pySplitext filename).1
  let name : String := ⟨subTsAll name.data⟩
  let name : String := ⟨name.data.map (fun c => if c == '_' then ' ' else c)⟩
  let name := joinSpace (pySplitWs name)
  joinSpace ((pySplitWs name).map pyCapitalize)

/-- One record of the list returned by `get_stored_decks`. -/
structure DeckInfo where
  name : String
  originalFilename : String
  path : String
  timestamp : String
  language : String
deriving DecidableEq

/-- The `'timestamp'` field: `f"{m.group(1)}_{m.group(2)}"`, or the sentinel
`'00000000_000000'` when the filename has no parseable timestamp. -/
def deckTimestamp (filename : String) : String :=
  match searchTs filename.data with
  | some (g1, g2, _) => (⟨g1⟩ : String) ++ "_" ++ (⟨g2⟩ : String)
  | none => "00000000_000000"

/-- The body of `get_stored_decks`' directory loop for one file: `.apkg`
files and extensionless valid-JSON files become deck records; the optional
language filter compares case-insensitively. -/
def deckInfoOf (languageFilter : Option String) (f : StoreFile) : Option DeckInfo :=
  if pyEndsWith f.name ".apkg" || !(pyHasChar f.name '.') then
    if !(pyHasChar f.name '.') && !(is_valid_json_file f.data) then none
    else if (match languageFilter with
             | some lf =>
               pyLower (extract_language_from_filename f.name) == pyLower lf
             | none => true) then
      some { name := extract_display_name f.name,
             originalFilename := f.name,
             path := fullPath f,
             timestamp := deckTimestamp f.name,
             language := extract_language_from_filename f.name }
    else none
  else none

/-- `deck_storage.get_stored_decks` (lines 334-393): scan the storage
directory, keep `.apkg` files and extensionless valid-JSON files, optionally
filter by language, and sort by timestamp descending (stable, as Python's
`list.sort(key=..., reverse=True)`). -/
def get_stored_decks (store : Store) (languageFilter : Option String) :
    List DeckInfo :=
  sortBy (fun a b => lexLtChars b.timestamp.data a.timestamp.data)
    (store.filterMap (deckInfoOf languageFilter))

/-- `deck_storage.delete_stored_deck` (lines 395-419): remove the file at
`deck_path`; for `.apkg` paths also remove the companion JSON at
`deck_path.replace('.apkg', '.json')`.  Returns the new directory state and
the success flag (`False` when the path did not exist). -/
def delete_stored_deck (store : Store) (deckPath : String) : Store × Bool :=
  if store.any (fun f => fullPath f == deckPath) then
    (if pyEndsWith deckPath ".apkg" then
       (store.filter (fun f => !(fullPath f == deckPath))).filter
         (fun f => !(fullPath f == pyReplace deckPath ".apkg" ".json"))
     else store.filter (fun f => !(fullPath f == deckPath)), true)
  else (store, false)

/-- `os.path.exists` plus reading: the first directory entry at `path`. -/
def lookupFile (store : Store) (path : String) : Option FileData :=
  (store.find? (fun f => fullPath f == path)).map (·.data)

/-- The sidecar metadata path of a stored deck path, as computed at lines
469-473: the path itself when it has no `'.'`, else
`path.replace('.apkg', '.json')`. -/
def deckJsonPath (deckPath : String) : String :=
  if !(pyHasChar deckPath '.') then deckPath
  else pyReplace deckPath ".apkg" ".json"

/-- Expand a possibly combined form: `word.split('/')` when the word contains
`'/'`, else the word alone. -/
def expandWord (w : String) : List String :=
  if pyHasChar w '/' then pySplitChar w '/' else [w]

/-- The words one stored deck contributes to
`get_words_from_all_stored_decks` (lines 475-491): its sidecar JSON's
categories, combined forms expanded, everything lowercased; nothing when the
sidecar is missing or not valid JSON. -/
def sidecarWords (store : Store) (deckPath : String) : List String :=
  match lookupFile store (deckJsonPath deckPath) with
  | some (.jsonFile bundle) =>
    bundle.flatMap (fun cw => (cw.2.flatMap expandWord).map pyLower)
  | _ => []

/-- `deck_storage.get_words_from_all_stored_decks` (lines 454-514).  The
Python function returns a set; it is modelled as the list of contributed
words and used only through membership. -/
def get_words_from_all_stored_decks (store : Store) (language : String) :
    List String :=
  (get_stored_decks store (some language)).flatMap (fun d => sidecarWords store d.path)

/-! ## Reconciliation Engine: `anki_manager.compare_with_existing_decks`

Translated from `src/anki_manager.py`, lines 87-165.  The extra sources
(`existing_decks`) are modelled by the word dictionaries they decode to: the
`"name (path)"` unwrapping and `get_existing_words_from_deck` I/O happen
before any word is inspected, and a source whose read raises is skipped
(`except ... continue`), i.e. simply absent from the list. -/

/-- A category → word-list dictionary (`WordBundle`). -/
abbrev WordBundle := List (String × List String)

/-- Lines 117-125: the words one extra deck contributes to
`all_existing_words` — every category's words with combined forms split. -/
def expandBundleWords (bundle : WordBundle) : List String :=
  bundle.flatMap (fun cw => cw.2.flatMap expandWord)

/-- `all_existing_words` after lines 106-129: stored-deck words (note the
language argument fixed to the callee's default `"Spanish"`) plus the extra
decks' expanded words.  A Python set, modelled as a list used only through
membership. -/
def allExistingWords (store : Store) (extraDecks : List WordBundle) : List String :=
  get_words_from_all_stored_decks store "Spanish" ++ extraDecks.flatMap expandBundleWords

/-- Lines 141-149: is `word` already known?  A combined form counts as known
when either side (lowercased) is in the known set; a plain word when its
lowercase is. -/
def isExistingWord (knownLower : List String) (word : String) : Bool :=
  if pyHasChar word '/' then
    (pySplitChar word '/').any (fun part => knownLower.contains (pyLower part))
  else knownLower.contains (pyLower word)

/-- Lines 159-163: append the routed word to `existing` or `new` of the
partially-built result `r` according to `is_existing`. -/
def routeStep (word : String) (isExisting : Bool)
    (r : List String × List String × List String) :
    List String × List String × List String :=
  if isExisting then (r.1, word :: r.2.1, r.2.2)
  else (word :: r.1, r.2.1, r.2.2)

/-- Lines 139-163 for one category: route each word.  A plain word whose
lowercase is in `already_processed` is skipped; otherwise (and for every
combined form, which never consults `already_processed`) the word's lowercase
is recorded and the word goes to `existing` or `new` by `isExistingWord`.
Returns `(new, existing, already_processed)`. -/
def routeCategory (knownLower : List String) :
    List String → List String → List String × List String × List String
  | [], processed => ([], [], processed)
  | word :: rest, processed =>
    if !(pyHasChar word '/') && processed.contains (pyLower word) then
      routeCategory knownLower rest processed
    else
      routeStep word (isExistingWord knownLower word)
        (routeCategory knownLower rest (pyLower word :: processed))

/-- Lines 138-163: iterate the categories in order, threading
`already_processed` across them. -/
def compareCore (knownLower : List String) :
    WordBundle → List String → WordBundle × WordBundle
  | [], _ => ([], [])
  | (c, ws) :: rest, processed =>
    ((c, (routeCategory knownLower ws processed).1) ::
        (compareCore knownLower rest (routeCategory knownLower ws processed).2.2).1,
     (c, (routeCategory knownLower ws processed).2.1) ::
        (compareCore knownLower rest (routeCategory knownLower ws processed).2.2).2)

/-- `anki_manager.compare_with_existing_decks` (lines 87-165). -/
def compare_with_existing_decks (store : Store) (extraDecks : List WordBundle)
    (new_words : WordBundle) : WordBundle × WordBundle :=
  let allExisting := allExistingWords store extraDecks
  let allExistingLower := allExisting.map pyLower
  compareCore allExistingLower new_words []

example :
    compare_with_existing_decks [] [] [("nouns", ["Casa", "casa", "Mesa"])] =
      ([("nouns", ["Casa", "Mesa"])], [("nouns", [])]) := by decide

example :
    compare_with_existing_decks
      [⟨"d_spanish_20240101_120000.apkg", .binary⟩,
       ⟨"d_spanish_20240101_120000.json", .jsonFile [("nouns", ["casa"])]⟩]
      [] [("nouns", ["Casa", "Mesa"])] =
      ([("nouns", ["Mesa"])], [("nouns", ["Casa"])]) := by decide

example :
    compare_with_existing_decks [] [[("adjectives", ["bueno"])]]
      [("adjectives", ["bueno/buena"])] =
      ([("adjectives", [])], [("adjectives", ["bueno/buena"])]) := by decide

/-! ### Characterization of the routing loop -/

theorem contains_iff_mem {l : List String} {a : String} :
    l.contains a = true ↔ a ∈ l := List.elem_iff

theorem contains_eq_false_iff {l : List String} {a : String} :
    l.contains a = false ↔ a ∉ l := by
  constructor
  · intro h hm
    rw [contains_iff_mem.mpr hm] at h
    exact Bool.noConfusion h
  · intro h
    cases hc : l.contains a
    · rfl
    · exact absurd (contains_iff_mem.mp hc) h

theorem contains_congr {l₁ l₂ : List String} (h : ∀ x, x ∈ l₁ ↔ x ∈ l₂)
    (a : String) : l₁.contains a = l₂.contains a := by
  by_cases hm : a ∈ l₁
  · rw [contains_iff_mem.mpr hm, contains_iff_mem.mpr ((h a).mp hm)]
  · rw [contains_eq_false_iff.mpr hm,
        contains_eq_false_iff.mpr (fun hx => hm ((h a).mpr hx))]

theorem toLower_eq_slash {c : Char} : Char.toLower c = '/' ↔ c = '/' := by
  constructor
  · intro h
    unfold Char.toLower at h
    by_cases hc : c.toNat ≥ 65 ∧ c.toNat ≤ 90
    · exfalso
      rw [if_pos hc] at h
      have key : ∀ m, 97 ≤ m → m ≤ 122 → Char.ofNat m ≠ '/' := by
        intro m hm1 hm2
        interval_cases m <;> decide
      exact key (c.toNat + 32) (by omega) (by omega) h
    · rwa [if_neg hc] at h
  · intro h; subst h; decide

theorem pyLower_hasSlash (w : String) :
    pyHasChar (pyLower w) '/' = pyHasChar w '/' := by
  simp only [pyHasChar, pyLower]
  induction w.data with
  | nil => rfl
  | cons c rest ih =>
    simp only [List.map_cons, List.contains_cons, ih]
    have : ('/' == Char.toLower c) = ('/' == c) := by
      by_cases h : c = '/'
      · subst h; rfl
      · have h1 : ('/' == c) = false := by
          rw [beq_eq_false_iff_ne]; exact fun he => h he.symm
        have h2 : ('/' == Char.toLower c) = false := by
          rw [beq_eq_false_iff_ne]
          exact fun he => h (toLower_eq_slash.mp he.symm)
        rw [h1, h2]
    rw [this]

theorem pyLower_ne_of_slash {x w : String} (hx : pyHasChar x '/' = false)
    (hw : pyHasChar w '/' = true) : pyLower w ≠ pyLower x := by
  intro h
  have h1 := pyLower_hasSlash w
  rw [h, pyLower_hasSlash x, hx, hw] at h1
  exact Bool.noConfusion h1

/-- First element of `ws` whose lowercase is `y`. -/
def firstWithLower (ws : List String) (y : String) : Option String :=
  ws.find? (fun w => pyLower w == y)

theorem firstWithLower_cons_ne {word : String} {rest : List String} {y : String}
    (h : (pyLower word == y) = false) :
    firstWithLower (word :: rest) y = firstWithLower rest y := by
  unfold firstWithLower
  simp only [List.find?_cons, h]

theorem firstWithLower_cons_self {word : String} {rest : List String} {y : String}
    (h : (pyLower word == y) = true) :
    firstWithLower (word :: rest) y = some word := by
  unfold firstWithLower
  simp only [List.find?_cons, h]

/-- When `x` is routed by the lines 139-163 loop over the words `ws` of one
category, given `already_processed = processed` at the category's start:
always for a combined form in `ws`; for a plain word, only when its lowercase
was not processed before and it is the first of its lowercase class in `ws`. -/
def routedHere (ws processed : List String) (x : String) : Prop :=
  if pyHasChar x '/' = true then x ∈ ws
  else x ∈ ws ∧ pyLower x ∉ processed ∧ firstWithLower ws (pyLower x) = some x

theorem routedHere_nil {processed : List String} {x : String} :
    ¬ routedHere [] processed x := by
  unfold routedHere
  split
  · exact List.not_mem_nil x
  · rintro ⟨hx, -⟩; exact List.not_mem_nil x hx

theorem routedHere_cons_skip {word : String} {rest processed : List String}
    {x : String} (hwp : pyHasChar word '/' = false)
    (hmem : pyLower word ∈ processed) :
    routedHere (word :: rest) processed x ↔ routedHere rest processed x := by
  unfold routedHere
  by_cases hx : pyHasChar x '/' = true
  · rw [if_pos hx, if_pos hx]
    have hne : x ≠ word := by
      intro h; rw [h, hwp] at hx; exact Bool.noConfusion hx
    simp [List.mem_cons, hne]
  · rw [if_neg hx, if_neg hx]
    by_cases hpx : pyLower x ∈ processed
    · simp [hpx]
    · have hne : pyLower word ≠ pyLower x := fun h => hpx (h ▸ hmem)
      have hnex : x ≠ word := fun h => hne (by rw [h])
      have hbeq : (pyLower word == pyLower x) = false :=
        beq_eq_false_iff_ne.mpr hne
      rw [firstWithLower_cons_ne hbeq]
      simp [List.mem_cons, hnex]

theorem routedHere_cons_route_ne {word : String} {rest processed : List String}
    {x : String} (hnex : x ≠ word) :
    routedHere (word :: rest) processed x ↔
      routedHere rest (pyLower word :: processed) x := by
  unfold routedHere
  by_cases hx : pyHasChar x '/' = true
  · rw [if_pos hx, if_pos hx]
    simp [List.mem_cons, hnex]
  · rw [if_neg hx, if_neg hx]
    by_cases hbeq : (pyLower word == pyLower x) = true
    · -- the head claims this lowercase class: x (≠ word) is not first, and
      -- the lowercase is processed after the head
      have heq : pyLower word = pyLower x := eq_of_beq hbeq
      constructor
      · rintro ⟨hxin, hnp, hfirst⟩
        rw [firstWithLower_cons_self hbeq] at hfirst
        exact absurd (Option.some.inj hfirst) (fun h => hnex h.symm)
      · rintro ⟨hxin, hnp, hfirst⟩
        exact absurd (heq ▸ List.mem_cons_self (pyLower word) processed) hnp
    · have hbeq' : (pyLower word == pyLower x) = false :=
        Bool.eq_false_iff.mpr hbeq
      have hne : pyLower word ≠ pyLower x := beq_eq_false_iff_ne.mp hbeq'
      rw [firstWithLower_cons_ne hbeq']
      simp only [List.mem_cons, hnex, false_or]
      constructor
      · rintro ⟨hxin, hnp, hfirst⟩
        exact ⟨hxin, fun hm => hm.elim (fun h => hne h.symm) hnp, hfirst⟩
      · rintro ⟨hxin, hnp, hfirst⟩
        exact ⟨hxin, fun hm => hnp (Or.inr hm), hfirst⟩


/-- Membership characterization of one category's routing: a word string `x`
lands in the `new` list iff it is routed here and unknown, and in the
`existing` list iff it is routed here and known. -/
theorem routeCategory_mem (knownLower : List String) (ws : List String)
    (processed : List String) (x : String) :
    (x ∈ (routeCategory knownLower ws processed).1 ↔
      routedHere ws processed x ∧ isExistingWord knownLower x = false) ∧
    (x ∈ (routeCategory knownLower ws processed).2.1 ↔
      routedHere ws processed x ∧ isExistingWord knownLower x = true) := by
  induction ws generalizing processed with
  | nil =>
    constructor <;>
      exact ⟨fun h => absurd h (List.not_mem_nil x),
             fun h => absurd h.1 routedHere_nil⟩
  | cons word rest ih =>
    by_cases hskip : (!(pyHasChar word '/') && processed.contains (pyLower word)) = true
    · have hstep : routeCategory knownLower (word :: rest) processed =
          routeCategory knownLower rest processed := by
        conv_lhs => rw [routeCategory]
        rw [if_pos hskip]
      have hand := hskip
      rw [Bool.and_eq_true] at hand
      have hwp : pyHasChar word '/' = false := by
        cases h : pyHasChar word '/'
        · rfl
        · rw [h] at hand
          exact Bool.noConfusion hand.1
      have hmem : pyLower word ∈ processed := contains_iff_mem.mp hand.2
      rw [hstep]
      have hiff : routedHere (word :: rest) processed x ↔
          routedHere rest processed x := routedHere_cons_skip hwp hmem
      exact ⟨by rw [(ih processed).1, hiff], by rw [(ih processed).2, hiff]⟩
    · have ihr := ih (pyLower word :: processed)
      have hrh : routedHere (word :: rest) processed word := by
        unfold routedHere
        by_cases hw : pyHasChar word '/' = true
        · rw [if_pos hw]
          exact List.mem_cons_self word rest
        · rw [if_neg hw]
          have hw2 : pyHasChar word '/' = false := by
            cases h : pyHasChar word '/'
            · rfl
            · exact absurd h hw
          have hnp : pyLower word ∉ processed := by
            intro hm
            apply hskip
            rw [Bool.and_eq_true, hw2]
            exact ⟨rfl, contains_iff_mem.mpr hm⟩
          exact ⟨List.mem_cons_self word rest, hnp,
            firstWithLower_cons_self (beq_self_eq_true (pyLower word))⟩
      have hstep : routeCategory knownLower (word :: rest) processed =
          routeStep word (isExistingWord knownLower word)
            (routeCategory knownLower rest (pyLower word :: processed)) := by
        conv_lhs => rw [routeCategory]
        rw [if_neg hskip]
      by_cases hex : isExistingWord knownLower word = true
      · have hstep1 : (routeCategory knownLower (word :: rest) processed).1 =
            (routeCategory knownLower rest (pyLower word :: processed)).1 := by
          rw [hstep]
          unfold routeStep
          rw [if_pos hex]
        have hstep2 : (routeCategory knownLower (word :: rest) processed).2.1 =
            word :: (routeCategory knownLower rest (pyLower word :: processed)).2.1 := by
          rw [hstep]
          unfold routeStep
          rw [if_pos hex]
        rw [hstep1, hstep2]
        by_cases hnex : x = word
        · subst hnex
          refine ⟨?_, ?_⟩
          · rw [ihr.1]
            constructor
            · rintro ⟨-, hf⟩
              rw [hex] at hf
              exact Bool.noConfusion hf
            · rintro ⟨-, hf⟩
              rw [hex] at hf
              exact Bool.noConfusion hf
          · constructor
            · intro _
              exact ⟨hrh, hex⟩
            · intro _
              exact List.mem_cons_self x _
        · have hiff : routedHere (word :: rest) processed x ↔
              routedHere rest (pyLower word :: processed) x :=
            routedHere_cons_route_ne hnex
          have hx2 : x ∈ word :: (routeCategory knownLower rest
              (pyLower word :: processed)).2.1 ↔
              x ∈ (routeCategory knownLower rest (pyLower word :: processed)).2.1 := by
            rw [List.mem_cons]
            simp [hnex]
          refine ⟨?_, ?_⟩
          · rw [ihr.1, hiff]
          · rw [hx2, ihr.2, hiff]
      · have hex2 : isExistingWord knownLower word = false := by
          cases h : isExistingWord knownLower word
          · rfl
          · exact absurd h hex
        have hstep1 : (routeCategory knownLower (word :: rest) processed).1 =
            word :: (routeCategory knownLower rest (pyLower word :: processed)).1 := by
          rw [hstep]
          unfold routeStep
          rw [if_neg hex]
        have hstep2 : (routeCategory knownLower (word :: rest) processed).2.1 =
            (routeCategory knownLower rest (pyLower word :: processed)).2.1 := by
          rw [hstep]
          unfold routeStep
          rw [if_neg hex]
        rw [hstep1, hstep2]
        by_cases hnex : x = word
        · subst hnex
          refine ⟨?_, ?_⟩
          · constructor
            · intro _
              exact ⟨hrh, hex2⟩
            · intro _
              exact List.mem_cons_self x _
          · rw [ihr.2]
            constructor
            · rintro ⟨-, hf⟩
              rw [hex2] at hf
              exact Bool.noConfusion hf
            · rintro ⟨-, hf⟩
              rw [hex2] at hf
              exact Bool.noConfusion hf
        · have hiff : routedHere (word :: rest) processed x ↔
              routedHere rest (pyLower word :: processed) x :=
            routedHere_cons_route_ne hnex
          have hx1 : x ∈ word :: (routeCategory knownLower rest
              (pyLower word :: processed)).1 ↔
              x ∈ (routeCategory knownLower rest (pyLower word :: processed)).1 := by
            rw [List.mem_cons]
            simp [hnex]
          refine ⟨?_, ?_⟩
          · rw [hx1, ihr.1, hiff]
          · rw [ihr.2, hiff]

/-- Membership in `already_processed` after routing one category: the old
contents plus the lowercase of every word of the category (routed or
skipped — a skipped word's lowercase was already present). -/
theorem routeCategory_processed (knownLower : List String) (ws : List String)
    (processed : List String) (y : String) :
    y ∈ (routeCategory knownLower ws processed).2.2 ↔
      y ∈ processed ∨ ∃ w ∈ ws, y = pyLower w := by
  induction ws generalizing processed with
  | nil => simp [routeCategory]
  | cons word rest ih =>
    by_cases hskip : (!(pyHasChar word '/') && processed.contains (pyLower word)) = true
    · have hstep : routeCategory knownLower (word :: rest) processed =
          routeCategory knownLower rest processed := by
        conv_lhs => rw [routeCategory]
        rw [if_pos hskip]
      have hand := hskip
      rw [Bool.and_eq_true] at hand
      have hmem : pyLower word ∈ processed := contains_iff_mem.mp hand.2
      rw [hstep, ih]
      constructor
      · rintro (h | ⟨w, hw, hy⟩)
        · exact Or.inl h
        · exact Or.inr ⟨w, List.mem_cons_of_mem _ hw, hy⟩
      · rintro (h | ⟨w, hw, hy⟩)
        · exact Or.inl h
        · subst hy
          rcases List.mem_cons.mp hw with h1 | h1
          · subst h1
            exact Or.inl hmem
          · exact Or.inr ⟨w, h1, rfl⟩
    · have hstep : (routeCategory knownLower (word :: rest) processed).2.2 =
          (routeCategory knownLower rest (pyLower word :: processed)).2.2 := by
        conv_lhs => rw [routeCategory]
        rw [if_neg hskip]
        unfold routeStep
        by_cases hex : isExistingWord knownLower word = true
        · rw [if_pos hex]
        · rw [if_neg hex]
      rw [hstep, ih]
      constructor
      · rintro (h | ⟨w, hw, hy⟩)
        · rcases List.mem_cons.mp h with h1 | h1
          · exact Or.inr ⟨word, List.mem_cons_self _ _, h1⟩
          · exact Or.inl h1
        · exact Or.inr ⟨w, List.mem_cons_of_mem _ hw, hy⟩
      · rintro (h | ⟨w, hw, hy⟩)
        · exact Or.inl (List.mem_cons_of_mem _ h)
        · subst hy
          rcases List.mem_cons.mp hw with h1 | h1
          · subst h1
            exact Or.inl (List.mem_cons_self _ _)
          · exact Or.inr ⟨w, h1, rfl⟩

/-- `already_processed` at the end of a sequence of categories. -/
def procAfter (knownLower : List String) : WordBundle → List String → List String
  | [], p => p
  | (_, ws) :: rest, p =>
    procAfter knownLower rest (routeCategory knownLower ws p).2.2

theorem procAfter_mem (knownLower : List String) (b : WordBundle)
    (p : List String) (y : String) :
    y ∈ procAfter knownLower b p ↔
      y ∈ p ∨ ∃ cw ∈ b, ∃ w ∈ cw.2, y = pyLower w := by
  induction b generalizing p with
  | nil => simp [procAfter]
  | cons cw rest ih =>
    obtain ⟨c, ws⟩ := cw
    have hstep : procAfter knownLower ((c, ws) :: rest) p =
        procAfter knownLower rest (routeCategory knownLower ws p).2.2 := rfl
    rw [hstep, ih]
    constructor
    · rintro (h | ⟨cw, hcw, w, hw, hy⟩)
      · rw [routeCategory_processed] at h
        rcases h with h1 | ⟨w, hw, hy⟩
        · exact Or.inl h1
        · exact Or.inr ⟨(c, ws), List.mem_cons_self _ _, w, hw, hy⟩
      · exact Or.inr ⟨cw, List.mem_cons_of_mem _ hcw, w, hw, hy⟩
    · rintro (h | ⟨cw, hcw, w, hw, hy⟩)
      · exact Or.inl ((routeCategory_processed _ _ _ _).mpr (Or.inl h))
      · rcases List.mem_cons.mp hcw with h1 | h1
        · subst h1
          exact Or.inl ((routeCategory_processed _ _ _ _).mpr (Or.inr ⟨w, hw, hy⟩))
        · exact Or.inr ⟨cw, h1, w, hw, hy⟩

theorem compareCore_length (knownLower : List String) (b : WordBundle)
    (p : List String) :
    (compareCore knownLower b p).1.length = b.length ∧
    (compareCore knownLower b p).2.length = b.length := by
  induction b generalizing p with
  | nil => simp [compareCore]
  | cons cw rest ih =>
    obtain ⟨c, ws⟩ := cw
    have hstep := ih (routeCategory knownLower ws p).2.2
    simp only [compareCore, List.length_cons]
    omega

theorem compareCore_append (knownLower : List String) (pre post : WordBundle)
    (p : List String) :
    (compareCore knownLower (pre ++ post) p).1 =
      (compareCore knownLower pre p).1 ++
        (compareCore knownLower post (procAfter knownLower pre p)).1 ∧
    (compareCore knownLower (pre ++ post) p).2 =
      (compareCore knownLower pre p).2 ++
        (compareCore knownLower post (procAfter knownLower pre p)).2 := by
  induction pre generalizing p with
  | nil =>
    constructor <;> simp [compareCore, procAfter]
  | cons cw rest ih =>
    obtain ⟨c, ws⟩ := cw
    have hrec := ih (routeCategory knownLower ws p).2.2
    constructor <;>
      simp only [List.cons_append, compareCore, procAfter, List.append_eq,
        hrec.1, hrec.2]

theorem compareCore_entry (knownLower : List String) (pre post : WordBundle)
    (c : String) (ws : List String) :
    (compareCore knownLower (pre ++ (c, ws) :: post) []).1[pre.length]? =
      some (c, (routeCategory knownLower ws (procAfter knownLower pre [])).1) ∧
    (compareCore knownLower (pre ++ (c, ws) :: post) []).2[pre.length]? =
      some (c, (routeCategory knownLower ws (procAfter knownLower pre [])).2.1) := by
  have happ := compareCore_append knownLower pre ((c, ws) :: post) []
  have hlen := compareCore_length knownLower pre []
  constructor
  · rw [happ.1, List.getElem?_append, hlen.1, if_neg (lt_irrefl pre.length),
      Nat.sub_self]
    simp [compareCore]
  · rw [happ.2, List.getElem?_append, hlen.2, if_neg (lt_irrefl pre.length),
      Nat.sub_self]
    simp [compareCore]

/-- C1 (amended): the routing of `compare_with_existing_decks` partitions each
category as follows.  A combined-form word (containing `'/'`) is routed on
EVERY occurrence — the `already_processed` duplicate skip never applies to it
— and lands in `new` exactly when unknown and in `existing` exactly when
known.  A plain word is routed (into exactly one of the two outputs, chosen
by the known set) exactly when no word of an earlier category shares its
case-folded form and it is the first word of its case-folded class within its
own category; otherwise it appears in neither output for this category. -/
theorem C1_amended_partition (store : Store) (extraDecks : List WordBundle)
    (pre post : WordBundle) (c : String) (ws : List String) :
    ∃ nws exs,
      (compare_with_existing_decks store extraDecks
        (pre ++ (c, ws) :: post)).1[pre.length]? = some (c, nws) ∧
      (compare_with_existing_decks store extraDecks
        (pre ++ (c, ws) :: post)).2[pre.length]? = some (c, exs) ∧
      ∀ w ∈ ws,
        (pyHasChar w '/' = true →
          ((w ∈ nws ↔ isExistingWord
              ((allExistingWords store extraDecks).map pyLower) w = false) ∧
           (w ∈ exs ↔ isExistingWord
              ((allExistingWords store extraDecks).map pyLower) w = true))) ∧
        (pyHasChar w '/' = false →
          (((∃ cw ∈ pre, ∃ v ∈ cw.2, pyLower v = pyLower w) ∨
              firstWithLower ws (pyLower w) ≠ some w) →
            w ∉ nws ∧ w ∉ exs) ∧
          ((¬(∃ cw ∈ pre, ∃ v ∈ cw.2, pyLower v = pyLower w) ∧
              firstWithLower ws (pyLower w) = some w) →
            ((w ∈ nws ↔ isExistingWord
                ((allExistingWords store extraDecks).map pyLower) w = false) ∧
             (w ∈ exs ↔ isExistingWord
                ((allExistingWords store extraDecks).map pyLower) w = true)))) := by
  have hdef : compare_with_existing_decks store extraDecks (pre ++ (c, ws) :: post) =
      compareCore ((allExistingWords store extraDecks).map pyLower)
        (pre ++ (c, ws) :: post) [] := rfl
  set k := (allExistingWords store extraDecks).map pyLower with hk
  have hentry := compareCore_entry k pre post c ws
  set p' := procAfter k pre [] with hp
  refine ⟨(routeCategory k ws p').1, (routeCategory k ws p').2.1,
    by rw [hdef]; exact hentry.1, by rw [hdef]; exact hentry.2, ?_⟩
  intro w hw
  have hmem := routeCategory_mem k ws p' w
  have hpmem : pyLower w ∈ p' ↔
      ∃ cw ∈ pre, ∃ v ∈ cw.2, pyLower v = pyLower w := by
    rw [hp, procAfter_mem]
    constructor
    · rintro (h | ⟨cw, hcw, v, hv, hy⟩)
      · exact absurd h (List.not_mem_nil _)
      · exact ⟨cw, hcw, v, hv, hy.symm⟩
    · rintro ⟨cw, hcw, v, hv, hy⟩
      exact Or.inr ⟨cw, hcw, v, hv, hy.symm⟩
  constructor
  · intro hslash
    have hrh : routedHere ws p' w := by
      unfold routedHere
      rw [if_pos hslash]
      exact hw
    constructor
    · rw [hmem.1]
      exact ⟨fun h => h.2, fun h => ⟨hrh, h⟩⟩
    · rw [hmem.2]
      exact ⟨fun h => h.2, fun h => ⟨hrh, h⟩⟩
  · intro hplain
    constructor
    · intro hdup
      have hnrh : ¬ routedHere ws p' w := by
        unfold routedHere
        rw [if_neg (by rw [hplain]; exact Bool.noConfusion)]
        rintro ⟨-, hnp, hfirst⟩
        rcases hdup with h | h
        · exact hnp (hpmem.mpr h)
        · exact h hfirst
      constructor
      · rw [hmem.1]
        rintro ⟨hr, -⟩
        exact hnrh hr
      · rw [hmem.2]
        rintro ⟨hr, -⟩
        exact hnrh hr
    · rintro ⟨hnodup, hfirst⟩
      have hrh : routedHere ws p' w := by
        unfold routedHere
        rw [if_neg (by rw [hplain]; exact Bool.noConfusion)]
        exact ⟨hw, fun hp'' => hnodup (hpmem.mp hp''), hfirst⟩
      constructor
      · rw [hmem.1]
        exact ⟨fun h => h.2, fun h => ⟨hrh, h⟩⟩
      · rw [hmem.2]
        exact ⟨fun h => h.2, fun h => ⟨hrh, h⟩⟩

/-- C1 counterexample: the claim's duplicate rule does NOT hold for
combined-form words.  With an empty Word Store and no extra sources, the
fresh bundle putting the same combined word `"bueno/buena"` in two categories
routes it into `new` in BOTH categories: the second occurrence — a case-folded
duplicate of an earlier word of the bundle — appears in an output instead of
appearing in neither, because the combined-form branch never consults the
`already_processed` set. -/
theorem C1_counterexample_combined_routed_twice :
    compare_with_existing_decks [] []
        [("adjectives", ["bueno/buena"]), ("other", ["bueno/buena"])] =
      ([("adjectives", ["bueno/buena"]), ("other", ["bueno/buena"])],
       [("adjectives", []), ("other", [])]) ∧
    (compare_with_existing_decks [] []
        [("adjectives", ["bueno/buena"]), ("other", ["bueno/buena"])]).1[1]? =
      some ("other", ["bueno/buena"]) := by
  refine ⟨by decide, by decide⟩

/-- C3: whenever the assembled known-word set contains `"bueno"` (case-folded)
and a category of the fresh bundle contains the combined form
`"bueno/buena"`, reconciliation routes that combined form into `existing` and
not into `new`: a combined form counts as known when either side of the `/`
case-folds into the known set. -/
theorem C3_combined_form_matches_existing (store : Store)
    (extraDecks : List WordBundle) (pre post : WordBundle) (c : String)
    (ws : List String)
    (hword : "bueno/buena" ∈ ws)
    (hknown : "bueno" ∈ (allExistingWords store extraDecks).map pyLower) :
    ∃ nws exs,
      (compare_with_existing_decks store extraDecks
        (pre ++ (c, ws) :: post)).1[pre.length]? = some (c, nws) ∧
      (compare_with_existing_decks store extraDecks
        (pre ++ (c, ws) :: post)).2[pre.length]? = some (c, exs) ∧
      "bueno/buena" ∈ exs ∧ "bueno/buena" ∉ nws := by
  have hdef : compare_with_existing_decks store extraDecks (pre ++ (c, ws) :: post) =
      compareCore ((allExistingWords store extraDecks).map pyLower)
        (pre ++ (c, ws) :: post) [] := rfl
  set k := (allExistingWords store extraDecks).map pyLower with hk
  have hentry := compareCore_entry k pre post c ws
  have hex : isExistingWord k "bueno/buena" = true := by
    unfold isExistingWord
    rw [if_pos (by decide : pyHasChar "bueno/buena" '/' = true)]
    rw [show pySplitChar "bueno/buena" '/' = ["bueno", "buena"] from by decide]
    have hcont : k.contains (pyLower "bueno") = true := by
      rw [show pyLower "bueno" = "bueno" from by decide]
      exact contains_iff_mem.mpr hknown
    rw [List.any_eq_true]
    exact ⟨"bueno", by decide, hcont⟩
  have hmem := routeCategory_mem k ws (procAfter k pre []) "bueno/buena"
  have hrh : routedHere ws (procAfter k pre []) "bueno/buena" := by
    unfold routedHere
    rw [if_pos (by decide : pyHasChar "bueno/buena" '/' = true)]
    exact hword
  refine ⟨(routeCategory k ws (procAfter k pre [])).1,
    (routeCategory k ws (procAfter k pre [])).2.1,
    by rw [hdef]; exact hentry.1, by rw [hdef]; exact hentry.2, ?_, ?_⟩
  · exact hmem.2.mpr ⟨hrh, hex⟩
  · rw [hmem.1]
    rintro ⟨-, hf⟩
    rw [hex] at hf
    exact Bool.noConfusion hf

/-- Witness for `C3_combined_form_matches_existing`: known set from one extra
deck containing `"bueno"`, fresh bundle with the single category
`"adjectives"` holding `"bueno/buena"`. -/
theorem C3_combined_form_matches_existing_witness :
    ∃ nws exs,
      (compare_with_existing_decks [] [[("nouns", ["bueno"])]]
        [("adjectives", ["bueno/buena"])]).1[(0 : Nat)]? = some ("adjectives", nws) ∧
      (compare_with_existing_decks [] [[("nouns", ["bueno"])]]
        [("adjectives", ["bueno/buena"])]).2[(0 : Nat)]? = some ("adjectives", exs) ∧
      "bueno/buena" ∈ exs ∧ "bueno/buena" ∉ nws :=
  C3_combined_form_matches_existing [] [[("nouns", ["bueno"])]] [] []
    "adjectives" ["bueno/buena"] (by decide) (by decide)

/-! ### Determinism of reconciliation over the directory enumeration -/

theorem string_eq_of_data {a b : String} (h : a.data = b.data) : a = b := by
  cases a
  cases b
  exact congrArg String.mk h

theorem fullPath_inj {f g : StoreFile} (h : fullPath f = fullPath g) :
    f.name = g.name := by
  unfold fullPath at h
  have hd := congrArg String.data h
  rw [String.data_append, String.data_append] at hd
  exact string_eq_of_data (List.append_cancel_left hd)

/-- `os.listdir` enumeration order does not matter to file lookups when the
directory's filenames are distinct. -/
theorem lookupFile_perm {store store' : Store} (hperm : store.Perm store')
    (hnd : (store.map StoreFile.name).Nodup) (path : String) :
    lookupFile store path = lookupFile store' path := by
  unfold lookupFile
  cases hfind : store.find? (fun f => fullPath f == path) with
  | none =>
    rw [List.find?_eq_none] at hfind
    have : store'.find? (fun f => fullPath f == path) = none := by
      rw [List.find?_eq_none]
      intro x hx
      exact hfind x (hperm.mem_iff.mpr hx)
    rw [this]
  | some f =>
    have hf : f ∈ store := List.mem_of_find?_eq_some hfind
    have hpf : (fullPath f == path) = true :=
      List.find?_some (p := fun g => fullPath g == path) hfind
    have hsome : (store'.find? (fun g => fullPath g == path)).isSome = true :=
      List.find?_isSome.mpr ⟨f, hperm.mem_iff.mp hf, hpf⟩
    cases hfind' : store'.find? (fun g => fullPath g == path) with
    | none => rw [hfind'] at hsome; exact Bool.noConfusion hsome
    | some g =>
      have hg : g ∈ store := hperm.mem_iff.mpr (List.mem_of_find?_eq_some hfind')
      have hpg : (fullPath g == path) = true :=
        List.find?_some (p := fun g => fullPath g == path) hfind'
      have heq : f = g := by
        apply List.inj_on_of_nodup_map hnd hf hg
        have h1 : fullPath f = path := eq_of_beq hpf
        have h2 : fullPath g = path := eq_of_beq hpg
        exact fullPath_inj (h1.trans h2.symm)
      rw [heq]

theorem mem_get_stored_decks {store : Store} {lf : Option String}
    {d : DeckInfo} :
    d ∈ get_stored_decks store lf ↔ ∃ f ∈ store, deckInfoOf lf f = some d := by
  unfold get_stored_decks
  rw [mem_sortBy, List.mem_filterMap]

theorem mem_words_from_all {store : Store} {lang w : String} :
    w ∈ get_words_from_all_stored_decks store lang ↔
      ∃ d ∈ get_stored_decks store (some lang), w ∈ sidecarWords store d.path := by
  unfold get_words_from_all_stored_decks
  rw [List.mem_flatMap]

theorem sidecarWords_congr {store store' : Store}
    (h : ∀ p, lookupFile store p = lookupFile store' p) (deckPath : String) :
    sidecarWords store deckPath = sidecarWords store' deckPath := by
  unfold sidecarWords
  rw [h]

/-- Membership in the aggregate known-word set is stable under re-enumerating
the storage directory. -/
theorem words_from_all_perm {store store' : Store} (hperm : store.Perm store')
    (hnd : (store.map StoreFile.name).Nodup) (lang w : String) :
    w ∈ get_words_from_all_stored_decks store lang ↔
      w ∈ get_words_from_all_stored_decks store' lang := by
  have hlk : ∀ p, lookupFile store p = lookupFile store' p :=
    lookupFile_perm hperm hnd
  rw [mem_words_from_all, mem_words_from_all]
  constructor
  · rintro ⟨d, hd, hw⟩
    rw [mem_get_stored_decks] at hd
    obtain ⟨f, hf, hdf⟩ := hd
    refine ⟨d, mem_get_stored_decks.mpr ⟨f, hperm.mem_iff.mp hf, hdf⟩, ?_⟩
    rw [← sidecarWords_congr hlk]
    exact hw
  · rintro ⟨d, hd, hw⟩
    rw [mem_get_stored_decks] at hd
    obtain ⟨f, hf, hdf⟩ := hd
    refine ⟨d, mem_get_stored_decks.mpr ⟨f, hperm.mem_iff.mpr hf, hdf⟩, ?_⟩
    rw [sidecarWords_congr hlk]
    exact hw

theorem isExistingWord_congr {k₁ k₂ : List String}
    (h : ∀ x, x ∈ k₁ ↔ x ∈ k₂) (w : String) :
    isExistingWord k₁ w = isExistingWord k₂ w := by
  unfold isExistingWord
  by_cases hs : pyHasChar w '/' = true
  · rw [if_pos hs, if_pos hs]
    have harg : (fun part => k₁.contains (pyLower part)) =
        (fun part => k₂.contains (pyLower part)) :=
      funext (fun part => contains_congr h (pyLower part))
    rw [harg]
  · rw [if_neg hs, if_neg hs, contains_congr h]

theorem routeCategory_congr {k₁ k₂ : List String}
    (h : ∀ x, x ∈ k₁ ↔ x ∈ k₂) (ws processed : List String) :
    routeCategory k₁ ws processed = routeCategory k₂ ws processed := by
  induction ws generalizing processed with
  | nil => rfl
  | cons word rest ih =>
    conv_lhs => rw [routeCategory]
    conv_rhs => rw [routeCategory]
    by_cases hskip : (!(pyHasChar word '/') && processed.contains (pyLower word)) = true
    · rw [if_pos hskip, if_pos hskip, ih]
    · rw [if_neg hskip, if_neg hskip, isExistingWord_congr h word, ih]

theorem compareCore_congr {k₁ k₂ : List String}
    (h : ∀ x, x ∈ k₁ ↔ x ∈ k₂) (b : WordBundle) (p : List String) :
    compareCore k₁ b p = compareCore k₂ b p := by
  induction b generalizing p with
  | nil => rfl
  | cons cw rest ih =>
    obtain ⟨c, ws⟩ := cw
    simp only [compareCore, routeCategory_congr h, ih]

/-- C5: reconciliation is deterministic over an unchanged Word Store.  The
only run-to-run variation against identical stored decks and sidecar
contents is the directory enumeration order, so the claim is formalized as:
for any re-enumeration (permutation) of a storage directory with distinct
filenames, `compare_with_existing_decks` returns the IDENTICAL pair of
dictionaries — same categories, same words, same order.  (The rest of the
computation is a pure function of its arguments, so two calls with the same
arguments trivially agree.) -/
theorem C5_reconciliation_deterministic (store store' : Store)
    (extraDecks : List WordBundle) (new_words : WordBundle)
    (hperm : store.Perm store')
    (hnd : (store.map StoreFile.name).Nodup) :
    compare_with_existing_decks store extraDecks new_words =
      compare_with_existing_decks store' extraDecks new_words := by
  have hkw := words_from_all_perm hperm hnd "Spanish"
  have hk : ∀ x, x ∈ (allExistingWords store extraDecks).map pyLower ↔
      x ∈ (allExistingWords store' extraDecks).map pyLower := by
    intro x
    unfold allExistingWords
    simp only [List.map_append, List.mem_append, List.mem_map]
    constructor
    · rintro (⟨w, hw, hx⟩ | hui)
      · exact Or.inl ⟨w, (hkw w).mp hw, hx⟩
      · exact Or.inr hui
    · rintro (⟨w, hw, hx⟩ | hui)
      · exact Or.inl ⟨w, (hkw w).mpr hw, hx⟩
      · exact Or.inr hui
  show compareCore ((allExistingWords store extraDecks).map pyLower) new_words [] =
    compareCore ((allExistingWords store' extraDecks).map pyLower) new_words []
  exact compareCore_congr hk new_words []

/-- Witness for `C5_reconciliation_deterministic`: a two-file store listed in
the two possible enumeration orders. -/
theorem C5_reconciliation_deterministic_witness :
    compare_with_existing_decks
        [⟨"a_spanish_20240101_120000.apkg", .binary⟩,
         ⟨"a_spanish_20240101_120000.json", .jsonFile [("nouns", ["casa"])]⟩]
        [] [("nouns", ["Casa", "Mesa"])] =
      compare_with_existing_decks
        [⟨"a_spanish_20240101_120000.json", .jsonFile [("nouns", ["casa"])]⟩,
         ⟨"a_spanish_20240101_120000.apkg", .binary⟩]
        [] [("nouns", ["Casa", "Mesa"])] :=
  C5_reconciliation_deterministic _ _ [] [("nouns", ["Casa", "Mesa"])]
    (List.Perm.swap _ _ [])
    (by decide)

theorem deckInfoOf_some_spanish {lf : String} {f : StoreFile} {d : DeckInfo}
    (h : deckInfoOf (some lf) f = some d) :
    d.originalFilename = f.name ∧
    pyLower (extract_language_from_filename f.name) = pyLower lf := by
  unfold deckInfoOf at h
  by_cases h1 : (pyEndsWith f.name ".apkg" || !(pyHasChar f.name '.')) = true
  · rw [if_pos h1] at h
    by_cases h2 : (!(pyHasChar f.name '.') && !(is_valid_json_file f.data)) = true
    · rw [if_pos h2] at h
      exact absurd h (by simp)
    · rw [if_neg h2] at h
      by_cases h3 : (pyLower (extract_language_from_filename f.name) == pyLower lf) = true
      · rw [if_pos h3] at h
        have hd := Option.some.inj h
        exact ⟨by rw [← hd], eq_of_beq h3⟩
      · rw [if_neg h3] at h
        exact absurd h (by simp)
  · rw [if_neg h1] at h
    exact absurd h (by simp)

/-- C10: `compare_with_existing_decks` takes no language parameter; its
stored-deck contribution is always `get_words_from_all_stored_decks` at that
function's default language `"Spanish"` (first conjunct, definitional), and
every word the Word Store contributes comes from a stored deck whose
filename-inferred language case-folds to `"Spanish"` — a file classified as
any other language is never among the contributing decks (second and third
conjuncts). -/
theorem C10_store_words_fixed_to_spanish (store : Store)
    (extraDecks : List WordBundle) (new_words : WordBundle) :
    compare_with_existing_decks store extraDecks new_words =
      compareCore ((get_words_from_all_stored_decks store "Spanish" ++
        extraDecks.flatMap expandBundleWords).map pyLower) new_words [] ∧
    (∀ w ∈ get_words_from_all_stored_decks store "Spanish",
      ∃ d ∈ get_stored_decks store (some "Spanish"),
        w ∈ sidecarWords store d.path ∧
        pyLower (extract_language_from_filename d.originalFilename) =
          pyLower "Spanish") ∧
    (∀ f ∈ store,
      pyLower (extract_language_from_filename f.name) ≠ pyLower "Spanish" →
      ∀ d ∈ get_stored_decks store (some "Spanish"),
        d.originalFilename ≠ f.name) := by
  refine ⟨rfl, ?_, ?_⟩
  · intro w hw
    rw [mem_words_from_all] at hw
    obtain ⟨d, hd, hwd⟩ := hw
    obtain ⟨f, hf, hdf⟩ := mem_get_stored_decks.mp hd
    have hsp := deckInfoOf_some_spanish hdf
    refine ⟨d, hd, hwd, ?_⟩
    rw [hsp.1]
    exact hsp.2
  · intro f hf hlang d hd hname
    obtain ⟨g, hg, hdg⟩ := mem_get_stored_decks.mp hd
    have hsp := deckInfoOf_some_spanish hdg
    apply hlang
    rw [← hname, hsp.1]
    exact hsp.2

/-! ### Deletion consistency -/

theorem deckInfoOf_fields {lf : Option String} {f : StoreFile} {d : DeckInfo}
    (h : deckInfoOf lf f = some d) :
    d.originalFilename = f.name ∧ d.path = fullPath f := by
  unfold deckInfoOf at h
  by_cases h1 : (pyEndsWith f.name ".apkg" || !(pyHasChar f.name '.')) = true
  case neg =>
    rw [if_neg h1] at h
    exact absurd h (by simp)
  rw [if_pos h1] at h
  by_cases h2 : (!(pyHasChar f.name '.') && !(is_valid_json_file f.data)) = true
  case pos =>
    rw [if_pos h2] at h
    exact absurd h (by simp)
  rw [if_neg h2] at h
  cases lf with
  | none =>
    rw [if_pos rfl] at h
    have hd := Option.some.inj h
    exact ⟨by rw [← hd], by rw [← hd]⟩
  | some l =>
    by_cases h3 : (pyLower (extract_language_from_filename f.name) == pyLower l) = true
    · rw [if_pos h3] at h
      have hd := Option.some.inj h
      exact ⟨by rw [← hd], by rw [← hd]⟩
    · rw [if_neg h3] at h
      exact absurd h (by simp)

/-- Is `x` one of the (at most two) paths `delete_stored_deck p` removes? -/
def pathRemoved (p x : String) : Bool :=
  x == p || (pyEndsWith p ".apkg" && x == pyReplace p ".apkg" ".json")

theorem delete_fst_eq (store : Store) (p : String)
    (hany : store.any (fun f => fullPath f == p) = true) :
    (delete_stored_deck store p).1 =
      store.filter (fun f => !(pathRemoved p (fullPath f))) := by
  unfold delete_stored_deck
  rw [if_pos hany]
  by_cases he : pyEndsWith p ".apkg" = true
  · rw [if_pos he, List.filter_filter]
    apply List.filter_congr
    intro f _
    unfold pathRemoved
    rw [he]
    cases fullPath f == p <;> cases fullPath f == pyReplace p ".apkg" ".json" <;> rfl
  · rw [if_neg he]
    apply List.filter_congr
    intro f _
    unfold pathRemoved
    have he2 : pyEndsWith p ".apkg" = false := by
      cases h : pyEndsWith p ".apkg"
      · rfl
      · exact absurd h he
    rw [he2]
    cases fullPath f == p <;> rfl

theorem delete_snd_true (store : Store) (p : String)
    (hany : store.any (fun f => fullPath f == p) = true) :
    (delete_stored_deck store p).2 = true := by
  unfold delete_stored_deck
  rw [if_pos hany]

/-- Removing files by paths other than `q` does not change what a lookup at
`q` sees. -/
theorem lookupFile_filter_by_path (store : Store) (bad : String → Bool)
    (q : String) (hq : bad q = false) :
    lookupFile (store.filter (fun f => !(bad (fullPath f)))) q =
      lookupFile store q := by
  unfold lookupFile
  induction store with
  | nil => rfl
  | cons f rest ih =>
    by_cases hbad : bad (fullPath f) = true
    · have hkeep : (!(bad (fullPath f))) = false := by rw [hbad]; rfl
      rw [List.filter_cons,
        if_neg (show ¬((!(bad (fullPath f))) = true) by
          rw [hkeep]; exact fun hc => Bool.noConfusion hc)]
      have hne : (fullPath f == q) = false := by
        cases hfq : fullPath f == q
        · rfl
        · rw [eq_of_beq hfq] at hbad
          rw [hbad] at hq
          exact Bool.noConfusion hq
      rw [List.find?_cons, hne]
      exact ih
    · have hbad2 : bad (fullPath f) = false := by
        cases h : bad (fullPath f)
        · rfl
        · exact absurd h hbad
      have hkeep : (!(bad (fullPath f))) = true := by rw [hbad2]; rfl
      rw [List.filter_cons, if_pos hkeep]
      rw [List.find?_cons, List.find?_cons]
      cases hfq : fullPath f == q
      · exact ih
      · rfl

theorem pathRemoved_false_ne {p x : String} (h : pathRemoved p x = false) :
    x ≠ p := by
  intro he
  subst he
  unfold pathRemoved at h
  rw [beq_self_eq_true] at h
  simp at h

theorem lookup_filter_kept {store : Store} {bad : String → Bool} {q : String}
    {data : FileData}
    (h : lookupFile (store.filter (fun f => !(bad (fullPath f)))) q = some data) :
    bad q = false := by
  unfold lookupFile at h
  rw [Option.map_eq_some'] at h
  obtain ⟨g, hg, -⟩ := h
  have hmem := List.mem_of_find?_eq_some hg
  rw [List.mem_filter] at hmem
  have hpg : (fullPath g == q) = true :=
    List.find?_some (p := fun f => fullPath f == q) hg
  have hkeep := hmem.2
  rw [eq_of_beq hpg] at hkeep
  cases hb : bad q
  · rfl
  · rw [hb] at hkeep
    exact Bool.noConfusion hkeep

theorem sidecar_mem_filter {store : Store} {bad : String → Bool} {q w : String}
    (hw : w ∈ sidecarWords (store.filter (fun f => !(bad (fullPath f)))) q) :
    bad (deckJsonPath q) = false ∧ w ∈ sidecarWords store q := by
  cases hlk : lookupFile (store.filter (fun f => !(bad (fullPath f))))
      (deckJsonPath q) with
  | none =>
    unfold sidecarWords at hw
    rw [hlk] at hw
    exact absurd hw (List.not_mem_nil w)
  | some data =>
    have hbad : bad (deckJsonPath q) = false := lookup_filter_kept hlk
    have hsw : sidecarWords (store.filter (fun f => !(bad (fullPath f)))) q =
        sidecarWords store q := by
      unfold sidecarWords
      rw [lookupFile_filter_by_path store bad (deckJsonPath q) hbad]
    exact ⟨hbad, by rw [← hsw]; exact hw⟩

/-- C6 (amended): if `p` is the path of a currently listed stored deck, then
`delete_stored_deck p` succeeds; afterwards no listed deck has path `p`; a
word appearing in no OTHER listed Spanish deck's sidecar is gone from the
aggregate known-word set; and a word of another listed Spanish deck's sidecar
remains, PROVIDED that neither that deck's archive nor its sidecar is one of
the two files the deletion removes (`p` itself and
`p.replace('.apkg', '.json')` — the `str.replace`-derived sidecar path, which
two distinct deck filenames can share). -/
theorem C6_deletion_consistency (store : Store) (p : String)
    (hp : ∃ d ∈ get_stored_decks store none, d.path = p) :
    (delete_stored_deck store p).2 = true ∧
    (∀ d ∈ get_stored_decks (delete_stored_deck store p).1 none, d.path ≠ p) ∧
    (∀ w, (∀ d ∈ get_stored_decks store (some "Spanish"),
            d.path ≠ p → w ∉ sidecarWords store d.path) →
      w ∉ get_words_from_all_stored_decks (delete_stored_deck store p).1 "Spanish") ∧
    (∀ w d, d ∈ get_stored_decks store (some "Spanish") →
      pathRemoved p d.path = false →
      pathRemoved p (deckJsonPath d.path) = false →
      w ∈ sidecarWords store d.path →
      w ∈ get_words_from_all_stored_decks (delete_stored_deck store p).1 "Spanish") := by
  obtain ⟨d0, hd0, hd0p⟩ := hp
  obtain ⟨f0, hf0, hdf0⟩ := mem_get_stored_decks.mp hd0
  have hf0p : fullPath f0 = p := ((deckInfoOf_fields hdf0).2).symm.trans hd0p
  have hany : store.any (fun f => fullPath f == p) = true := by
    rw [List.any_eq_true]
    exact ⟨f0, hf0, by rw [hf0p]; exact beq_self_eq_true p⟩
  have hfst := delete_fst_eq store p hany
  refine ⟨delete_snd_true store p hany, ?_, ?_, ?_⟩
  · intro d hd hdp
    obtain ⟨f, hf, hdf⟩ := mem_get_stored_decks.mp hd
    rw [hfst, List.mem_filter] at hf
    have hfp : fullPath f = p := ((deckInfoOf_fields hdf).2).symm.trans hdp
    have hkeep := hf.2
    rw [hfp] at hkeep
    unfold pathRemoved at hkeep
    rw [beq_self_eq_true] at hkeep
    simp at hkeep
  · intro w hno hw
    rw [hfst, mem_words_from_all] at hw
    obtain ⟨d, hd, hwd⟩ := hw
    obtain ⟨f, hf, hdf⟩ := mem_get_stored_decks.mp hd
    have hfmem := List.mem_filter.mp hf
    have hdstore : d ∈ get_stored_decks store (some "Spanish") :=
      mem_get_stored_decks.mpr ⟨f, hfmem.1, hdf⟩
    have hsc := sidecar_mem_filter hwd
    have hdp : d.path ≠ p := by
      rw [(deckInfoOf_fields hdf).2]
      have hkeep := hfmem.2
      apply pathRemoved_false_ne
      cases hpr : pathRemoved p (fullPath f)
      · rfl
      · rw [hpr] at hkeep
        exact Bool.noConfusion hkeep
    exact hno d hdstore hdp hsc.2
  · intro w d hd hdp hdjp hwd
    obtain ⟨f, hf, hdf⟩ := mem_get_stored_decks.mp hd
    have hfields := deckInfoOf_fields hdf
    have hfB : f ∈ store.filter (fun g => !(pathRemoved p (fullPath g))) := by
      rw [List.mem_filter]
      refine ⟨hf, ?_⟩
      rw [← hfields.2, hdp]
      rfl
    have hsw : sidecarWords (store.filter (fun g => !(pathRemoved p (fullPath g)))) d.path =
        sidecarWords store d.path := by
      unfold sidecarWords
      rw [lookupFile_filter_by_path store (pathRemoved p) (deckJsonPath d.path) hdjp]
    rw [hfst, mem_words_from_all]
    exact ⟨d, mem_get_stored_decks.mpr ⟨f, hfB, hdf⟩, by rw [hsw]; exact hwd⟩

/-- A storage directory in which two distinct `.apkg` deck files share one
sidecar metadata file: `'a.apkg.apkg'.replace('.apkg', '.json')` and
`'a.json.apkg'.replace('.apkg', '.json')` are both `'a.json.json'`, since
`str.replace` replaces every occurrence. -/
def sharedSidecarStore : Store :=
  [⟨"a.apkg.apkg", .binary⟩,
   ⟨"a.json.apkg", .binary⟩,
   ⟨"a.json.json", .jsonFile [("nouns", ["casa"])]⟩]

/-- C6 counterexample: the claim's parenthetical — "words also present in
another stored deck's sidecar remain" — fails on the code.  In
`sharedSidecarStore`, `"casa"` sits in the (shared) sidecar of BOTH listed
decks; deleting the stored deck `stored_decks/a.apkg.apkg` succeeds and also
deletes the shared sidecar `stored_decks/a.json.json`, so `"casa"` vanishes
from the aggregate known-word set even though the other deck
(`a.json.apkg`) is still listed and held that word in its sidecar. -/
theorem C6_counterexample_shared_sidecar :
    (delete_stored_deck sharedSidecarStore "stored_decks/a.apkg.apkg").2 = true ∧
    (∃ d ∈ get_stored_decks sharedSidecarStore (some "Spanish"),
      d.path = "stored_decks/a.apkg.apkg") ∧
    (∃ d ∈ get_stored_decks sharedSidecarStore (some "Spanish"),
      d.path ≠ "stored_decks/a.apkg.apkg" ∧
      "casa" ∈ sidecarWords sharedSidecarStore d.path) ∧
    (∃ d ∈ get_stored_decks
        (delete_stored_deck sharedSidecarStore "stored_decks/a.apkg.apkg").1 none,
      d.path = "stored_decks/a.json.apkg") ∧
    "casa" ∉ get_words_from_all_stored_decks
      (delete_stored_deck sharedSidecarStore "stored_decks/a.apkg.apkg").1
      "Spanish" := by
  refine ⟨by decide, by decide, by decide, by decide, by decide⟩

/-- A plain two-deck Spanish store for exercising deletion. -/
def twoDeckStore : Store :=
  [⟨"x_sp.apkg", .binary⟩, ⟨"x_sp.json", .jsonFile [("nouns", ["casa"])]⟩,
   ⟨"y_sp.apkg", .binary⟩, ⟨"y_sp.json", .jsonFile [("nouns", ["mesa"])]⟩]

/-- Witness for `C6_deletion_consistency` at `twoDeckStore`, deleting the
deck `stored_decks/y_sp.apkg`. -/
theorem C6_deletion_consistency_witness :
    (∃ d ∈ get_stored_decks twoDeckStore none, d.path = "stored_decks/y_sp.apkg") ∧
    ((delete_stored_deck twoDeckStore "stored_decks/y_sp.apkg").2 = true ∧
     (∀ d ∈ get_stored_decks
        (delete_stored_deck twoDeckStore "stored_decks/y_sp.apkg").1 none,
        d.path ≠ "stored_decks/y_sp.apkg") ∧
     (∀ w, (∀ d ∈ get_stored_decks twoDeckStore (some "Spanish"),
             d.path ≠ "stored_decks/y_sp.apkg" →
             w ∉ sidecarWords twoDeckStore d.path) →
       w ∉ get_words_from_all_stored_decks
         (delete_stored_deck twoDeckStore "stored_decks/y_sp.apkg").1 "Spanish") ∧
     (∀ w d, d ∈ get_stored_decks twoDeckStore (some "Spanish") →
       pathRemoved "stored_decks/y_sp.apkg" d.path = false →
       pathRemoved "stored_decks/y_sp.apkg" (deckJsonPath d.path) = false →
       w ∈ sidecarWords twoDeckStore d.path →
       w ∈ get_words_from_all_stored_decks
         (delete_stored_deck twoDeckStore "stored_decks/y_sp.apkg").1 "Spanish")) :=
  ⟨by decide,
   C6_deletion_consistency twoDeckStore "stored_decks/y_sp.apkg" (by decide)⟩

/-! ## Archive Codec: `deck_storage.extract_words_from_apkg`

Translated from `src/deck_storage.py`, lines 16-193 (and `categorize_word`,
lines 195-223).  The function observes an archive only through: whether the
zip container opens, whether `collection.anki2` exists, whether the SQL
queries succeed, the `field_names` computed from the `col` row's models JSON,
and the `(flds, sfld)` rows of the `notes` query and of the `cards`-join
query.  The archive is modelled by those observations. -/

/-- One row of the `notes` query (or of the `cards` join, which selects the
same two columns of the joined note): the raw `flds` string — the note's
fields joined by the 0x1f unit separator — and the sort field `sfld`. -/
structure NoteRow where
  flds : String
  sfld : String
deriving DecidableEq

/-- The 0x1f unit separator between note fields. -/
def fieldSep : Char := Char.ofNat 31

/-- Observable state of an archive, as `extract_words_from_apkg` reads it.
`fieldNames = none` models the case `model_data` is falsy at line 65: the
Python variable `field_names` is then never assigned, and reading it later
raises `NameError`.  `some []` covers the query/JSON failure and
no-keyword-field cases (which assign `[]`); `some idxs` the successful scan
of the models JSON. -/
inductive Apkg where
  | notZip
  | noDb
  | badDb
  | db (fieldNames : Option (List Nat)) (notes : List NoteRow) (cards : List NoteRow)

/-- `deck_storage.categorize_word` (lines 195-223).  The Python code indexes
`word[0]`; its callers only pass non-empty words, for which `headD` agrees. -/
def categorize_word (word : String) : String :=
  if ["ar", "er", "ir", "arse", "erse", "irse"].any (fun suf => pyEndsWith word suf) then
    "verbs"
  else if pyEndsWith word "mente" then "adverbs"
  else if ["o", "a", "os", "as", "oso", "osa", "ble"].any (fun suf => pyEndsWith word suf) then
    "adjectives"
  else if ["ción", "sión", "dad", "tad", "eza"].any (fun suf => pyEndsWith word suf) then
    "nouns"
  else if (word.data.headD 'a').isUpper then "nouns"
  else "other"

/-- The `words_dict` initialized at lines 33-39. -/
def emptyBundle : WordBundle :=
  [("nouns", []), ("verbs", []), ("adjectives", []), ("adverbs", []), ("other", [])]

/-- `words_dict[category]` (first entry with that key). -/
def bundleGet (b : WordBundle) (c : String) : List String :=
  match b.find? (fun cw => cw.1 == c) with
  | some cw => cw.2
  | none => []

/-- `words_dict[category].append(word)`. -/
def bundleAdd : WordBundle → String → String → WordBundle
  | [], _, _ => []
  | e :: rest, c, w =>
    if e.1 == c then (e.1, e.2 ++ [w]) :: bundleAdd rest c w
    else e :: bundleAdd rest c w

/-- Scan, after a `'<'`, for the shortest run of one-or-more non-`'<'`
characters closed by `'>'`; returns the remainder after the `'>'`. -/
def goGt : List Char → Option (List Char)
  | [] => none
  | c :: rest => if c == '>' then some rest else if c == '<' then none else goGt rest

/-- Match the lazy regex `<[^<]+?>` right after its opening `'<'`. -/
def findGt : List Char → Option (List Char)
  | [] => none
  | c0 :: rest => if c0 == '<' then none else goGt rest

/-- `re.sub('<[^<]+?>', '', s)`: delete every leftmost-first match.
Fuel-structured (each step consumes at least one character). -/
def stripHtmlFuel : Nat → List Char → List Char
  | 0, l => l
  | _, [] => []
  | Nat.succ k, c :: rest =>
    if c == '<' then
      match findGt rest with
      | some rest2 => stripHtmlFuel k rest2
      | none => c :: stripHtmlFuel k rest
    else c :: stripHtmlFuel k rest

/-- `re.sub('<[^<]+?>', '', s)`. -/
def stripHtml (s : String) : String := ⟨stripHtmlFuel s.data.length s.data⟩

/-- SQLite's `trim` (spaces only), used in the queries' `WHERE` clauses. -/
def sqliteTrim (s : String) : String :=
  ⟨((s.data.dropWhile (fun c => c == ' ')).reverse.dropWhile
      (fun c => c == ' ')).reverse⟩

/-- The per-word body of the Approach-2 notes loop (lines 116-148): clean the
word, apply the empty/no-alphanumeric and sentence filters, categorize, and
append if new; after appending, line 138 evaluates `flds and len(fields) > 1`
— when `flds` is truthy and the local `fields` was never assigned (every note
so far took the truthy-`sfld` branch) this raises `NameError`, which the
`except` at line 149 turns into an abort of the whole notes loop, flagged
here by `true` in the second component. -/
def addNoteWords2 (fieldsBound : Bool) (flds : String) :
    List String → WordBundle → WordBundle × Bool
  | [], b => (b, false)
  | w :: rest, b =>
    if pyStrip (stripHtml w) == "" || !(pyHasAlnum (pyStrip (stripHtml w))) then
      addNoteWords2 fieldsBound flds rest b
    else if decide ((pySplitWs (pyStrip (stripHtml w))).length > 3) then
      addNoteWords2 fieldsBound flds rest b
    else if (bundleGet b (categorize_word (pyStrip (stripHtml w)))).contains
        (pyStrip (stripHtml w)) then
      addNoteWords2 fieldsBound flds rest b
    else if !(flds == "") && !fieldsBound then
      (bundleAdd b (categorize_word (pyStrip (stripHtml w))) (pyStrip (stripHtml w)),
       true)
    else
      addNoteWords2 fieldsBound flds rest
        (bundleAdd b (categorize_word (pyStrip (stripHtml w))) (pyStrip (stripHtml w)))

/-- Line 106-114's selection of candidate words from the split fields:
`field_names` entries in range when non-empty, else the first field. -/
def noteWordSelection (fns : List Nat) (flds : String) : List String :=
  if !fns.isEmpty then fns.filterMap (fun i => (pySplitChar flds fieldSep)[i]?)
  else if !(pySplitChar flds fieldSep).isEmpty then
    [(pySplitChar flds fieldSep).headD ""]
  else []

/-- The Approach-2 notes loop (lines 97-148): per note, take the stripped
`sfld` when truthy, else bind `fields = flds.split('\x1f')` and select by
`field_names` (whose very read raises `NameError`, ending the loop, when the
variable is unbound) or take the first field. -/
def notesLoop2 (fieldNames : Option (List Nat)) :
    List NoteRow → Bool → WordBundle → WordBundle
  | [], _, b => b
  | n :: rest, bound, b =>
    if !(n.sfld == "") then
      match addNoteWords2 bound n.flds [pyStrip n.sfld] b with
      | (b2, true) => b2
      | (b2, false) => notesLoop2 fieldNames rest bound b2
    else
      match fieldNames with
      | none => b
      | some fns =>
        match addNoteWords2 true n.flds (noteWordSelection fns n.flds) b with
        | (b2, true) => b2
        | (b2, false) => notesLoop2 fieldNames rest true b2

/-- The per-word body of the Approach-3 cards loop (lines 174-182): same
cleaning, filters and conditional append, with no translation scan. -/
def addCardWords : List String → WordBundle → WordBundle
  | [], b => b
  | w :: rest, b =>
    if pyStrip (stripHtml w) == "" || !(pyHasAlnum (pyStrip (stripHtml w))) ||
        decide ((pySplitWs (pyStrip (stripHtml w))).length > 3) then
      addCardWords rest b
    else if (bundleGet b (categorize_word (pyStrip (stripHtml w)))).contains
        (pyStrip (stripHtml w)) then
      addCardWords rest b
    else
      addCardWords rest
        (bundleAdd b (categorize_word (pyStrip (stripHtml w))) (pyStrip (stripHtml w)))

/-- The Approach-3 cards loop (lines 152-184). -/
def cardsLoop3 : List NoteRow → WordBundle → WordBundle
  | [], b => b
  | n :: rest, b =>
    cardsLoop3 rest
      (addCardWords
        (if !(n.sfld == "") then [pyStrip n.sfld]
         else if !(pySplitChar n.flds fieldSep).isEmpty then
           [(pySplitChar n.flds fieldSep).headD ""]
         else []) b)

/-- The SQL `WHERE flds IS NOT NULL AND length(trim(flds)) > 0` filter of
both queries. -/
def sqlRowFilter (rows : List NoteRow) : List NoteRow :=
  rows.filter (fun n => !(sqliteTrim n.flds == ""))

/-- `deck_storage.extract_words_from_apkg` (lines 16-193).  Total: every
failure mode of the Python code is caught inside the function (the outer
`except` at line 189, the per-approach `except`s at lines 84, 149 and 183),
so the model returns a bundle for every archive state and never raises. -/
def extract_words_from_apkg : Apkg → WordBundle
  | .notZip => emptyBundle
  | .noDb => emptyBundle
  | .badDb => emptyBundle
  | .db fieldNames notes cards =>
    cardsLoop3 (sqlRowFilter cards)
      (notesLoop2 fieldNames (sqlRowFilter notes) false emptyBundle)

/-! ## Encode: `anki_manager.create_anki_deck` and the packaging writer -/

/-- Join note fields with the 0x1f unit separator. -/
def joinFieldSep : List String → String
  | [] => ""
  | [s] => s
  | s :: rest => s ++ String.singleton fieldSep ++ joinFieldSep rest

/-- Line 278: `translate_text(word, ...) or f"[{language} translation]"` —
the translator is an external service, modelled as an oracle; a `None` or
empty result falls back to the placeholder. -/
def translationField (translate : String → Option String) (language w : String) :
    String :=
  match translate w with
  | some t => if t == "" then "[" ++ language ++ " translation]" else t
  | none => "[" ++ language ++ " translation]"

/-- Lines 288-292: the audio field, `"[sound:{basename}]"` when an audio file
is mapped to the word, else the empty placeholder. -/
def audioField (audio : String → Option String) (w : String) : String :=
  match audio w with
  | some name => "[sound:" ++ name ++ "]"
  | none => ""

/-- The note `create_anki_deck` builds for one word (lines 273-296), as the
packaging library stores it.  Modelled from the spec (§4.1, §6): `encode` is
delegated to the packaging library, which is not part of the repository; per
its documented behavior it stores each note's fields joined by the 0x1f
separator, sets the sort field `sfld` to the note's first field (the word),
and creates one card per note (the model of `generate_anki_model` has a
single template). -/
def noteRowOf (translate : String → Option String) (audio : String → Option String)
    (language c w : String) : NoteRow :=
  { flds := joinFieldSep [w, translationField translate language w, c,
      "[Example sentence with " ++ w ++ "]", audioField audio w],
    sfld := w }

/-- The archive `create_anki_deck` (lines 210-316, `merge_existing = False`)
writes for a bundle: one note per word in category order, one card per note;
the model metadata's word-bearing field is `'Word'` (`generate_anki_model`,
lines 183-189), which the decoder's keyword scan resolves to field index 0,
so `field_names = [0]`. -/
def create_anki_deck_archive (translate : String → Option String)
    (audio : String → Option String) (language : String) (b : WordBundle) : Apkg :=
  .db (some [0])
    (b.flatMap (fun cw => cw.2.map (fun w => noteRowOf translate audio language cw.1 w)))
    (b.flatMap (fun cw => cw.2.map (fun w => noteRowOf translate audio language cw.1 w)))

/-- All words of a bundle, across categories, in order. -/
def bundleWords (b : WordBundle) : List String :=
  b.flatMap (fun cw => cw.2)

example :
    extract_words_from_apkg
      (create_anki_deck_archive (fun _ => none) (fun _ => none) "Spanish"
        [("nouns", ["casa"]), ("verbs", []), ("adjectives", []),
         ("adverbs", []), ("other", [])]) =
    [("nouns", []), ("verbs", []), ("adjectives", ["casa"]), ("adverbs", []),
     ("other", [])] := by decide

example :
    extract_words_from_apkg
      (create_anki_deck_archive (fun _ => none) (fun _ => none) "Spanish"
        [("nouns", ["casa", "Madrid"]), ("verbs", ["comer"]),
         ("adjectives", []), ("adverbs", []), ("other", [])]) =
    [("nouns", ["Madrid"]), ("verbs", ["comer"]), ("adjectives", ["casa"]),
     ("adverbs", []), ("other", [])] := by decide

theorem bundleAdd_keys (b : WordBundle) (c w : String) :
    (bundleAdd b c w).map Prod.fst = b.map Prod.fst := by
  induction b with
  | nil => rfl
  | cons e rest ih =>
    unfold bundleAdd
    by_cases h : (e.1 == c) = true
    · rw [if_pos h]
      simp only [List.map_cons, ih]
    · rw [if_neg h]
      simp only [List.map_cons, ih]

theorem addCardWords_keys (ws : List String) (b : WordBundle) :
    (addCardWords ws b).map Prod.fst = b.map Prod.fst := by
  induction ws generalizing b with
  | nil => rfl
  | cons w rest ih =>
    unfold addCardWords
    split
    · exact ih b
    · split
      · exact ih b
      · rw [ih, bundleAdd_keys]

theorem cardsLoop3_keys (rows : List NoteRow) (b : WordBundle) :
    (cardsLoop3 rows b).map Prod.fst = b.map Prod.fst := by
  induction rows generalizing b with
  | nil => rfl
  | cons n rest ih =>
    unfold cardsLoop3
    rw [ih, addCardWords_keys]

theorem addNoteWords2_keys (bound : Bool) (flds : String) (ws : List String)
    (b : WordBundle) :
    (addNoteWords2 bound flds ws b).1.map Prod.fst = b.map Prod.fst := by
  induction ws generalizing b with
  | nil => rfl
  | cons w rest ih =>
    unfold addNoteWords2
    split
    · exact ih b
    · split
      · exact ih b
      · split
        · exact ih b
        · split
          · exact bundleAdd_keys b _ _
          · rw [ih, bundleAdd_keys]

theorem notesLoop2_keys (fieldNames : Option (List Nat)) (rows : List NoteRow)
    (bound : Bool) (b : WordBundle) :
    (notesLoop2 fieldNames rows bound b).map Prod.fst = b.map Prod.fst := by
  induction rows generalizing bound b with
  | nil => rfl
  | cons n rest ih =>
    unfold notesLoop2
    split
    · cases hr : addNoteWords2 bound n.flds [pyStrip n.sfld] b with
      | mk b2 aborted =>
        have hk : b2.map Prod.fst = b.map Prod.fst := by
          have := addNoteWords2_keys bound n.flds [pyStrip n.sfld] b
          rw [hr] at this
          exact this
        cases aborted
        · simp only
          rw [ih, hk]
        · simp only
          exact hk
    · cases fieldNames with
      | none => rfl
      | some fns =>
        have hkeys := addNoteWords2_keys true n.flds (noteWordSelection fns n.flds) b
        split
        · rfl
        · rename_i b2 heq
          injection heq with hb2
          subst hb2
          split
          · rename_i b3 heq2
            rw [heq2] at hkeys
            exact hkeys
          · rename_i b3 heq2
            rw [heq2] at hkeys
            rw [ih]
            exact hkeys

/-- C4: the decoder is total — every failure mode (bad container, missing
database, unreadable database, per-note errors) is absorbed inside
`extract_words_from_apkg`, which for every archive state returns a WordBundle
whose key list is exactly the canonical categories; when the container fails
to open or the embedded database is missing, every category is empty. -/
theorem C4_decode_total_canonical_keys (a : Apkg) :
    (extract_words_from_apkg a).map Prod.fst =
      ["nouns", "verbs", "adjectives", "adverbs", "other"] ∧
    extract_words_from_apkg .notZip = emptyBundle ∧
    extract_words_from_apkg .noDb = emptyBundle := by
  refine ⟨?_, rfl, rfl⟩
  cases a with
  | notZip => rfl
  | noDb => rfl
  | badDb => rfl
  | db fieldNames notes cards =>
    unfold extract_words_from_apkg
    rw [cardsLoop3_keys, notesLoop2_keys]
    rfl

/-! ## C7: the sidecar written by `save_deck_to_storage` -/

/-- `save_deck_to_storage` (lines 259-273), restricted to the sidecar
outcome.  The `try` block calls `extract_words_from_apkg` — which absorbs all
its failures internally and always returns a dict — and then writes that dict
as the stored copy's sidecar; the `except` branch (copying the source's
pre-existing sidecar, when one exists) is therefore reachable only through an
I/O failure of the write itself, modelled by `writeOk = false`.
`isApkgSource` is the `deck_path.endswith('.apkg')` test at line 260;
`oldSidecar` is the contents of `deck_path.replace('.apkg', '.json')` when
that file exists, `none` otherwise; the result is the stored sidecar's
contents, `none` when no sidecar is written. -/
def save_deck_sidecar (isApkgSource : Bool) (a : Apkg) (writeOk : Bool)
    (oldSidecar : Option WordBundle) : Option WordBundle :=
  if isApkgSource then
    if writeOk then some (extract_words_from_apkg a) else oldSidecar
  else none

/-- C7: a failed decode does NOT fall back to the source's pre-existing
sidecar.  `extract_words_from_apkg` never raises, so whenever the sidecar
write succeeds the stored sidecar is exactly the decode's result for EVERY
archive state — including the failure states — and in particular a corrupt
archive with a non-empty pre-existing sidecar gets an all-empty snapshot,
not the old sidecar's contents. -/
theorem C7_decode_failure_yields_empty_sidecar :
    (∀ (a : Apkg) (old : Option WordBundle),
        save_deck_sidecar true a true old = some (extract_words_from_apkg a)) ∧
    save_deck_sidecar true Apkg.notZip true
        (some [("nouns", ["casa"]), ("verbs", []), ("adjectives", []),
               ("adverbs", []), ("other", [])]) = some emptyBundle ∧
    some emptyBundle ≠
      some [("nouns", ["casa"]), ("verbs", []), ("adjectives", []),
            ("adverbs", []), ("other", [])] :=
  ⟨fun _ _ => rfl, rfl, by decide⟩

/-! ## C9: round-tripping a bundle through encode and decode -/

theorem bundleGet_cons (e : String × List String) (rest : WordBundle) (c : String) :
    bundleGet (e :: rest) c = if e.1 == c then e.2 else bundleGet rest c := by
  unfold bundleGet
  cases h : (e.1 == c)
  · rw [List.find?_cons_of_neg (p := fun cw => cw.1 == c) (a := e) _ (by simp [h])]
    simp
  · rw [List.find?_cons_of_pos (p := fun cw => cw.1 == c) (a := e) _ (by simp [h])]
    simp

theorem bundleGet_nil (c : String) : bundleGet [] c = [] := rfl

/-- `words_dict[category].append(word)` appends to the first entry carrying
`category` (when one exists) and touches no other category's list. -/
theorem bundleGet_bundleAdd (b : WordBundle) (c w c' : String) :
    bundleGet (bundleAdd b c w) c' =
      if c' = c ∧ c ∈ b.map Prod.fst then bundleGet b c' ++ [w]
      else bundleGet b c' := by
  induction b with
  | nil => simp [bundleAdd, bundleGet_nil]
  | cons e rest ih =>
    unfold bundleAdd
    by_cases hc : e.1 == c
    · rw [if_pos hc]
      rw [bundleGet_cons, bundleGet_cons]
      by_cases hc' : e.1 == c'
      · rw [if_pos hc', if_pos hc']
        have h1 : c' = c := by
          rw [← beq_iff_eq.mp hc', ← beq_iff_eq.mp hc]
        have h2 : c ∈ (e :: rest).map Prod.fst := by
          rw [← beq_iff_eq.mp hc]
          exact List.mem_map_of_mem _ (List.mem_cons_self _ _)
        rw [if_pos ⟨h1, h2⟩]
      · rw [if_neg hc', if_neg hc', ih]
        have hne : ¬(c' = c ∧ c ∈ rest.map Prod.fst) := by
          rintro ⟨rfl, _⟩
          exact hc' hc
        rw [if_neg hne]
        have hne2 : ¬(c' = c ∧ c ∈ (e :: rest).map Prod.fst) := by
          rintro ⟨rfl, _⟩
          exact hc' hc
        rw [if_neg hne2]
    · rw [if_neg hc]
      rw [bundleGet_cons, bundleGet_cons]
      by_cases hc' : e.1 == c'
      · rw [if_pos hc', if_pos hc']
        have hne : ¬(c' = c ∧ c ∈ (e :: rest).map Prod.fst) := by
          rintro ⟨rfl, _⟩
          exact hc hc'
        rw [if_neg hne]
      · rw [if_neg hc', if_neg hc', ih]
        have hmem : (c ∈ (e :: rest).map Prod.fst) ↔ (c ∈ rest.map Prod.fst) := by
          simp only [List.map_cons, List.mem_cons]
          constructor
          · rintro (rfl | h)
            · exact absurd (beq_iff_eq.mpr rfl) hc
            · exact h
          · exact Or.inr
        by_cases hcnd : c' = c ∧ c ∈ rest.map Prod.fst
        · rw [if_pos hcnd, if_pos ⟨hcnd.1, hmem.mpr hcnd.2⟩]
        · rw [if_neg hcnd, if_neg (fun h => hcnd ⟨h.1, hmem.mp h.2⟩)]

theorem mem_bundleGet_bundleAdd {b : WordBundle} {c w c' w' : String} :
    w' ∈ bundleGet (bundleAdd b c w) c' ↔
      w' ∈ bundleGet b c' ∨ (w' = w ∧ c' = c ∧ c ∈ b.map Prod.fst) := by
  rw [bundleGet_bundleAdd]
  by_cases h : c' = c ∧ c ∈ b.map Prod.fst
  · rw [if_pos h]
    simp only [List.mem_append, List.mem_singleton]
    constructor
    · rintro (hm | rfl)
      · exact Or.inl hm
      · exact Or.inr ⟨rfl, h⟩
    · rintro (hm | ⟨rfl, _⟩)
      · exact Or.inl hm
      · exact Or.inr rfl
  · rw [if_neg h]
    constructor
    · exact Or.inl
    · rintro (hm | ⟨rfl, hcc⟩)
      · exact hm
      · exact absurd hcc h

theorem bundleGet_emptyBundle (c : String) : bundleGet emptyBundle c = [] := by
  show bundleGet
    [("nouns", []), ("verbs", []), ("adjectives", []), ("adverbs", []),
     ("other", [])] c = []
  rw [bundleGet_cons, bundleGet_cons, bundleGet_cons, bundleGet_cons,
    bundleGet_cons, bundleGet_nil]
  repeat' split
  all_goals rfl

/-- `categorize_word` always answers one of the five canonical categories. -/
theorem categorize_word_mem (w : String) :
    categorize_word w ∈ ["nouns", "verbs", "adjectives", "adverbs", "other"] := by
  unfold categorize_word
  repeat' split
  all_goals decide

theorem pyHasAlnum_ne_empty {w : String} (h : pyHasAlnum w = true) :
    (w == "") = false := by
  cases hw : (w == "")
  · rfl
  · rw [beq_iff_eq.mp hw] at h
    exact absurd h (by decide)

/-- Every word a bundle holds comes from the pool `S` and sits in the category
`categorize_word` assigns it. -/
def soundFor (S : List String) (b : WordBundle) : Prop :=
  ∀ c w, w ∈ bundleGet b c → w ∈ S ∧ categorize_word w = c

theorem soundFor_emptyBundle (S : List String) : soundFor S emptyBundle := by
  intro c w hw
  rw [bundleGet_emptyBundle] at hw
  exact absurd hw (List.not_mem_nil w)

theorem soundFor_bundleAdd {S : List String} {b : WordBundle} {w : String}
    (hb : soundFor S b) (hw : w ∈ S) :
    soundFor S (bundleAdd b (categorize_word w) w) := by
  intro c w' hw'
  rcases mem_bundleGet_bundleAdd.mp hw' with h | ⟨rfl, rfl, _⟩
  · exact hb c w' h
  · exact ⟨hw, rfl⟩

theorem addNoteWords2_sound {S : List String} (fb : Bool) (flds : String)
    (ws : List String) (b : WordBundle)
    (hws : ∀ w ∈ ws, pyStrip (stripHtml w) ∈ S) (hb : soundFor S b) :
    soundFor S (addNoteWords2 fb flds ws b).1 := by
  induction ws generalizing b with
  | nil => exact hb
  | cons w rest ih =>
    have hw : pyStrip (stripHtml w) ∈ S := hws w (List.mem_cons_self _ _)
    have hrest : ∀ x ∈ rest, pyStrip (stripHtml x) ∈ S :=
      fun x hx => hws x (List.mem_cons_of_mem _ hx)
    unfold addNoteWords2
    split
    · exact ih b hrest hb
    · split
      · exact ih b hrest hb
      · split
        · exact ih b hrest hb
        · split
          · exact soundFor_bundleAdd hb hw
          · exact ih _ hrest (soundFor_bundleAdd hb hw)

/-- The candidate words the Approach-2 loop derives from one note row. -/
def noteWords (fieldNames : Option (List Nat)) (n : NoteRow) : List String :=
  if !(n.sfld == "") then [pyStrip n.sfld]
  else
    match fieldNames with
    | none => []
    | some fns => noteWordSelection fns n.flds

theorem notesLoop2_sound {S : List String} (fieldNames : Option (List Nat))
    (rows : List NoteRow) (bound : Bool) (b : WordBundle)
    (hrows : ∀ n ∈ rows, ∀ w ∈ noteWords fieldNames n, pyStrip (stripHtml w) ∈ S)
    (hb : soundFor S b) :
    soundFor S (notesLoop2 fieldNames rows bound b) := by
  induction rows generalizing bound b with
  | nil => exact hb
  | cons n rest ih =>
    have hn : ∀ w ∈ noteWords fieldNames n, pyStrip (stripHtml w) ∈ S :=
      hrows n (List.mem_cons_self _ _)
    have hrest : ∀ m ∈ rest, ∀ w ∈ noteWords fieldNames m, pyStrip (stripHtml w) ∈ S :=
      fun m hm => hrows m (List.mem_cons_of_mem _ hm)
    unfold notesLoop2
    split
    · rename_i hs
      have hws : ∀ w ∈ [pyStrip n.sfld], pyStrip (stripHtml w) ∈ S := by
        intro w hw
        apply hn
        unfold noteWords
        rw [if_pos hs]
        exact hw
      have hsound := addNoteWords2_sound bound n.flds [pyStrip n.sfld] b hws hb
      split
      · rename_i b2 heq
        rw [heq] at hsound
        exact hsound
      · rename_i b2 heq
        rw [heq] at hsound
        exact ih bound b2 hrest hsound
    · rename_i hs
      split
      · exact hb
      · rename_i x fns
        have hws : ∀ w ∈ noteWordSelection fns n.flds, pyStrip (stripHtml w) ∈ S := by
          intro w hw
          apply hn
          unfold noteWords
          rw [if_neg hs]
          exact hw
        have hsound := addNoteWords2_sound true n.flds (noteWordSelection fns n.flds) b hws hb
        split
        · rename_i b3 heq2
          rw [heq2] at hsound
          exact hsound
        · rename_i b3 heq2
          rw [heq2] at hsound
          exact ih true b3 hrest hsound

/-- One Approach-3 step on a clean word list: membership in the result is
membership in the input bundle or arrival of a listed word into the category
`categorize_word` assigns it. -/
theorem addCardWords_mem (ws : List String) (b : WordBundle) (c w' : String)
    (hws : ∀ w ∈ ws, stripHtml w = w ∧ pyStrip w = w ∧ pyHasAlnum w = true ∧
      (pySplitWs w).length ≤ 3)
    (hkeys : b.map Prod.fst = ["nouns", "verbs", "adjectives", "adverbs", "other"]) :
    w' ∈ bundleGet (addCardWords ws b) c ↔
      w' ∈ bundleGet b c ∨ (w' ∈ ws ∧ categorize_word w' = c) := by
  induction ws generalizing b with
  | nil => simp [addCardWords]
  | cons w rest ih =>
    obtain ⟨h1, h2, h3, h4⟩ := hws w (List.mem_cons_self _ _)
    have hrest : ∀ x ∈ rest, stripHtml x = x ∧ pyStrip x = x ∧ pyHasAlnum x = true ∧
        (pySplitWs x).length ≤ 3 :=
      fun x hx => hws x (List.mem_cons_of_mem _ hx)
    have hcw : pyStrip (stripHtml w) = w := by rw [h1, h2]
    unfold addCardWords
    rw [hcw]
    have hc1 : (w == "" || !pyHasAlnum w || decide ((pySplitWs w).length > 3)) = false := by
      rw [pyHasAlnum_ne_empty h3, h3, decide_eq_false (Nat.not_lt.mpr h4)]
      rfl
    rw [hc1, if_neg Bool.false_ne_true]
    by_cases hct : (bundleGet b (categorize_word w)).contains w = true
    · rw [if_pos hct, ih b hrest hkeys]
      constructor
      · rintro (hm | ⟨hm, hcat⟩)
        · exact Or.inl hm
        · exact Or.inr ⟨List.mem_cons_of_mem _ hm, hcat⟩
      · rintro (hm | ⟨hm, hcat⟩)
        · exact Or.inl hm
        · rcases List.mem_cons.mp hm with rfl | hm2
          · exact Or.inl (hcat ▸ contains_iff_mem.mp hct)
          · exact Or.inr ⟨hm2, hcat⟩
    · rw [if_neg hct, ih _ hrest (by rw [bundleAdd_keys]; exact hkeys)]
      rw [mem_bundleGet_bundleAdd]
      have hck : categorize_word w ∈ b.map Prod.fst := by
        rw [hkeys]
        exact categorize_word_mem w
      constructor
      · rintro ((hm | ⟨rfl, hc, _⟩) | ⟨hm, hcat⟩)
        · exact Or.inl hm
        · exact Or.inr ⟨List.mem_cons_self _ _, hc.symm⟩
        · exact Or.inr ⟨List.mem_cons_of_mem _ hm, hcat⟩
      · rintro (hm | ⟨hm, hcat⟩)
        · exact Or.inl (Or.inl hm)
        · rcases List.mem_cons.mp hm with rfl | hm2
          · exact Or.inl (Or.inr ⟨rfl, hcat.symm, hck⟩)
          · exact Or.inr ⟨hm2, hcat⟩

/-- The Approach-3 cards loop on rows with clean truthy sort fields adds
exactly the rows' stripped sort-field words, each into the category
`categorize_word` assigns it. -/
theorem cardsLoop3_mem (rows : List NoteRow) (b : WordBundle) (c w' : String)
    (hrows : ∀ n ∈ rows, (n.sfld == "") = false ∧
        stripHtml (pyStrip n.sfld) = pyStrip n.sfld ∧
        pyStrip (pyStrip n.sfld) = pyStrip n.sfld ∧
        pyHasAlnum (pyStrip n.sfld) = true ∧
        (pySplitWs (pyStrip n.sfld)).length ≤ 3)
    (hkeys : b.map Prod.fst = ["nouns", "verbs", "adjectives", "adverbs", "other"]) :
    w' ∈ bundleGet (cardsLoop3 rows b) c ↔
      w' ∈ bundleGet b c ∨
        (w' ∈ rows.map (fun n => pyStrip n.sfld) ∧ categorize_word w' = c) := by
  induction rows generalizing b with
  | nil => simp [cardsLoop3]
  | cons n rest ih =>
    obtain ⟨h0, h1, h2, h3, h4⟩ := hrows n (List.mem_cons_self _ _)
    have hrest : ∀ m ∈ rest, (m.sfld == "") = false ∧
        stripHtml (pyStrip m.sfld) = pyStrip m.sfld ∧
        pyStrip (pyStrip m.sfld) = pyStrip m.sfld ∧
        pyHasAlnum (pyStrip m.sfld) = true ∧
        (pySplitWs (pyStrip m.sfld)).length ≤ 3 :=
      fun m hm => hrows m (List.mem_cons_of_mem _ hm)
    unfold cardsLoop3
    rw [if_pos (show (!(n.sfld == "")) = true by rw [h0]; rfl)]
    rw [ih _ hrest (by rw [addCardWords_keys]; exact hkeys)]
    rw [addCardWords_mem [pyStrip n.sfld] b c w'
      (by
        intro x hx
        rw [List.mem_singleton] at hx
        subst hx
        exact ⟨h1, h2, h3, h4⟩) hkeys]
    simp only [List.map_cons, List.mem_cons, List.mem_singleton, List.not_mem_nil,
      or_false]
    constructor
    · rintro ((hm | ⟨rfl, hcat⟩) | ⟨hm, hcat⟩)
      · exact Or.inl hm
      · exact Or.inr ⟨Or.inl rfl, hcat⟩
      · exact Or.inr ⟨Or.inr hm, hcat⟩
    · rintro (hm | ⟨(hm | hm), hcat⟩)
      · exact Or.inl (Or.inl hm)
      · exact Or.inl (Or.inr ⟨hm, hcat⟩)
      · exact Or.inr ⟨hm, hcat⟩

theorem data_singleton (ch : Char) : (String.singleton ch).data = [ch] := rfl

/-- A string holding a non-space character survives SQLite's `trim`. -/
theorem sqliteTrim_ne_empty {s : String} {ch : Char} (hm : ch ∈ s.data)
    (hch : (ch == ' ') = false) : (sqliteTrim s == "") = false := by
  cases h : (sqliteTrim s == "")
  · rfl
  · exfalso
    have hs : sqliteTrim s = "" := beq_iff_eq.mp h
    have hdata : ((s.data.dropWhile (fun c => c == ' ')).reverse.dropWhile
        (fun c => c == ' ')).reverse = ([] : List Char) := congrArg String.data hs
    rw [List.reverse_eq_nil_iff, List.dropWhile_eq_nil_iff] at hdata
    have hsplit : s.data = List.takeWhile (fun c => c == ' ') s.data ++
        List.dropWhile (fun c => c == ' ') s.data :=
      (List.takeWhile_append_dropWhile (p := fun c => c == ' ') (l := s.data)).symm
    have hmem0 : ch ∈ List.takeWhile (fun c => c == ' ') s.data ++
        List.dropWhile (fun c => c == ' ') s.data := hsplit ▸ hm
    have hmem1 : ch ∈ s.data.dropWhile (fun c => c == ' ') := by
      rcases List.mem_append.mp hmem0 with h1 | h1
      · exact absurd (List.mem_takeWhile_imp h1)
          (by intro hp; rw [hch] at hp; exact Bool.noConfusion hp)
      · exact h1
    have hsp := hdata ch (List.mem_reverse.mpr hmem1)
    rw [hch] at hsp
    exact Bool.noConfusion hsp

/-- Every note the encoder writes contains the 0x1f field separator. -/
theorem fieldSep_mem_noteRowOf (translate audio : String → Option String)
    (language c w : String) :
    fieldSep ∈ (noteRowOf translate audio language c w).flds.data := by
  show fieldSep ∈ (joinFieldSep [w, translationField translate language w, c,
      "[Example sentence with " ++ w ++ "]", audioField audio w]).data
  simp [joinFieldSep, String.data_append, data_singleton, List.mem_append]

/-- The note rows the encoder produces for a bundle. -/
def encodeRows (translate audio : String → Option String) (language : String)
    (b : WordBundle) : List NoteRow :=
  b.flatMap (fun cw => cw.2.map (fun w => noteRowOf translate audio language cw.1 w))

theorem mem_encodeRows {translate audio : String → Option String} {language : String}
    {b : WordBundle} {n : NoteRow} :
    n ∈ encodeRows translate audio language b ↔
      ∃ cw ∈ b, ∃ w ∈ cw.2, n = noteRowOf translate audio language cw.1 w := by
  unfold encodeRows
  rw [List.mem_flatMap]
  constructor
  · rintro ⟨cw, hcw, hn⟩
    rw [List.mem_map] at hn
    obtain ⟨w, hw, rfl⟩ := hn
    exact ⟨cw, hcw, w, hw, rfl⟩
  · rintro ⟨cw, hcw, w, hw, rfl⟩
    exact ⟨cw, hcw, List.mem_map_of_mem _ hw⟩

theorem mem_bundleWords {b : WordBundle} {w : String} :
    w ∈ bundleWords b ↔ ∃ cw ∈ b, w ∈ cw.2 := by
  unfold bundleWords
  exact List.mem_flatMap

/-- No encoded note row is dropped by the SQL `length(trim(flds)) > 0` guard. -/
theorem sqlRowFilter_encodeRows (translate audio : String → Option String)
    (language : String) (b : WordBundle) :
    sqlRowFilter (encodeRows translate audio language b) =
      encodeRows translate audio language b := by
  apply List.filter_eq_self.mpr
  intro n hn
  rcases mem_encodeRows.mp hn with ⟨cw, hcw, w, hw, rfl⟩
  show (!(sqliteTrim (noteRowOf translate audio language cw.1 w).flds == "")) = true
  rw [sqliteTrim_ne_empty (fieldSep_mem_noteRowOf translate audio language cw.1 w)
    (by decide)]
  rfl

/-- C9: decoding the archive written for a bundle does NOT restore the
bundle's own categories: the decoder re-derives every word's category from
its surface form via `categorize_word`.  For bundles of clean words (no HTML
markup, no surrounding whitespace, containing an alphanumeric character, at
most three whitespace-separated tokens) the word SET is preserved exactly:
the decoded bundle has the five canonical categories, and holds a word `w`
in category `c` iff `w` is a word of the original bundle with
`categorize_word w = c` — so any word whose stored category differs from its
suffix-derived category moves to the latter. -/
theorem C9_roundtrip_words_recategorized
    (translate audio : String → Option String) (language : String) (b : WordBundle)
    (hclean : ∀ w ∈ bundleWords b, stripHtml w = w ∧ pyStrip w = w ∧
      pyHasAlnum w = true ∧ (pySplitWs w).length ≤ 3) :
    (extract_words_from_apkg
        (create_anki_deck_archive translate audio language b)).map Prod.fst =
      ["nouns", "verbs", "adjectives", "adverbs", "other"] ∧
    ∀ c w, w ∈ bundleGet (extract_words_from_apkg
        (create_anki_deck_archive translate audio language b)) c ↔
      (w ∈ bundleWords b ∧ categorize_word w = c) := by
  have hdec : extract_words_from_apkg (create_anki_deck_archive translate audio language b) =
      cardsLoop3 (sqlRowFilter (encodeRows translate audio language b))
        (notesLoop2 (some [0]) (sqlRowFilter (encodeRows translate audio language b))
          false emptyBundle) := rfl
  rw [hdec, sqlRowFilter_encodeRows]
  have hrowfacts : ∀ n ∈ encodeRows translate audio language b,
      (n.sfld == "") = false ∧
      stripHtml (pyStrip n.sfld) = pyStrip n.sfld ∧
      pyStrip (pyStrip n.sfld) = pyStrip n.sfld ∧
      pyHasAlnum (pyStrip n.sfld) = true ∧
      (pySplitWs (pyStrip n.sfld)).length ≤ 3 := by
    intro n hn
    rcases mem_encodeRows.mp hn with ⟨cw, hcw, w, hw, rfl⟩
    have hwmem : w ∈ bundleWords b := mem_bundleWords.mpr ⟨cw, hcw, hw⟩
    obtain ⟨hh, hs, ha, hl⟩ := hclean w hwmem
    show (w == "") = false ∧ stripHtml (pyStrip w) = pyStrip w ∧
      pyStrip (pyStrip w) = pyStrip w ∧ pyHasAlnum (pyStrip w) = true ∧
      (pySplitWs (pyStrip w)).length ≤ 3
    rw [hs]
    exact ⟨pyHasAlnum_ne_empty ha, hh, hs, ha, hl⟩
  have hkeys1 : (notesLoop2 (some [0]) (encodeRows translate audio language b)
      false emptyBundle).map Prod.fst =
      ["nouns", "verbs", "adjectives", "adverbs", "other"] := by
    rw [notesLoop2_keys]
    rfl
  constructor
  · rw [cardsLoop3_keys]
    exact hkeys1
  · intro c w
    rw [cardsLoop3_mem _ _ c w hrowfacts hkeys1]
    have hsound : soundFor (bundleWords b) (notesLoop2 (some [0])
        (encodeRows translate audio language b) false emptyBundle) := by
      apply notesLoop2_sound
      · intro n hn w' hw'
        rcases mem_encodeRows.mp hn with ⟨cw, hcw, w0, hw0, rfl⟩
        have hwmem : w0 ∈ bundleWords b := mem_bundleWords.mpr ⟨cw, hcw, hw0⟩
        obtain ⟨hh, hs, ha, hl⟩ := hclean w0 hwmem
        unfold noteWords at hw'
        rw [if_pos (show (!((noteRowOf translate audio language cw.1 w0).sfld == ""))
            = true by
          show (!(w0 == "")) = true
          rw [pyHasAlnum_ne_empty ha]
          rfl)] at hw'
        have hw'eq : w' = pyStrip w0 := List.mem_singleton.mp hw'
        rw [hw'eq, hs, hh, hs]
        exact hwmem
      · exact soundFor_emptyBundle _
    have hmap : ∀ w', w' ∈ (encodeRows translate audio language b).map
        (fun n => pyStrip n.sfld) ↔ w' ∈ bundleWords b := by
      intro w'
      rw [List.mem_map]
      constructor
      · rintro ⟨n, hn, rfl⟩
        rcases mem_encodeRows.mp hn with ⟨cw, hcw, w0, hw0, rfl⟩
        have hwmem : w0 ∈ bundleWords b := mem_bundleWords.mpr ⟨cw, hcw, hw0⟩
        have hs := (hclean w0 hwmem).2.1
        show pyStrip (noteRowOf translate audio language cw.1 w0).sfld ∈ bundleWords b
        rw [show (noteRowOf translate audio language cw.1 w0).sfld = w0 from rfl, hs]
        exact hwmem
      · intro hw'
        rcases mem_bundleWords.mp hw' with ⟨cw, hcw, hwcw⟩
        refine ⟨noteRowOf translate audio language cw.1 w',
          mem_encodeRows.mpr ⟨cw, hcw, w', hwcw, rfl⟩, ?_⟩
        show pyStrip w' = w'
        exact (hclean w' hw').2.1
    constructor
    · rintro (hm | ⟨hm, hcat⟩)
      · exact hsound c w hm
      · exact ⟨(hmap w).mp hm, hcat⟩
    · rintro ⟨hwS, hcat⟩
      exact Or.inr ⟨(hmap w).mpr hwS, hcat⟩

/-- C9 counterexample: the bundle `{nouns: ["casa"], ...}` does not survive a
round trip in its own categories — the decoder files "casa" by its `-a`
suffix, so the decoded bundle's `nouns` list no longer contains it. -/
theorem C9_counterexample_casa_recategorized :
    "casa" ∈ bundleGet [("nouns", ["casa"]), ("verbs", []), ("adjectives", []),
        ("adverbs", []), ("other", [])] "nouns" ∧
    "casa" ∉ bundleGet (extract_words_from_apkg
        (create_anki_deck_archive (fun _ => none) (fun _ => none) "Spanish"
          [("nouns", ["casa"]), ("verbs", []), ("adjectives", []),
           ("adverbs", []), ("other", [])])) "nouns" := by
  decide

/-- Witness for C9's amended round-trip law at the bundle
`{nouns: ["casa"], ...}`: the decoded bundle holds "casa" in `adjectives`,
the category `categorize_word` derives. -/
theorem C9_roundtrip_words_recategorized_witness :
    "casa" ∈ bundleGet (extract_words_from_apkg
        (create_anki_deck_archive (fun _ => none) (fun _ => none) "Spanish"
          [("nouns", ["casa"]), ("verbs", []), ("adjectives", []),
           ("adverbs", []), ("other", [])])) "adjectives" :=
  ((C9_roundtrip_words_recategorized (fun _ => none) (fun _ => none) "Spanish"
      [("nouns", ["casa"]), ("verbs", []), ("adjectives", []), ("adverbs", []),
       ("other", [])] (by decide)).2 "adjectives" "casa").mpr (by decide)
